import Mathlib

/-!
Shallow embedding of `semivariogram.py`: experimental semivariogram
computation (pairwise geometry, directional lag binning) and theoretical
model fitting with model selection, together with theorems checking the
specification claims against this embedding.

Numbers are modelled as real numbers; numpy arrays as lists; the angle
returned by the two-argument arctangent as the argument of the complex
number `x + i y`; exceptions as `Except` values.
-/

namespace Semivario

/-- Semivariogram type keyword of the source: `omnidirectional`,
`directional`, or `directional+orientational`. -/
inductive SVType
  | omni
  | directional
  | dirOri
deriving DecidableEq

/-- Pair enumeration `for o in range(n-1): for p in range(o+1, n)` used by
`distang` and by the inner loops of `semivario`: ascending `o`, then
ascending `p`. -/
def pairs (n : ℕ) : List (ℕ × ℕ) :=
  (List.range (n - 1)).flatMap fun o =>
    (List.range' (o + 1) (n - (o + 1))).map fun p => (o, p)

/-- Python built-in `max` of a list (the source applies it to the distance
array `r`; Python raises on an empty list, all claims assume `n ≥ 2` which
makes `r` nonempty, and the `[]` case here is an arbitrary default). -/
def pymax : List ℝ → ℝ
  | [] => 0
  | a :: l => l.foldl max a

lemma le_foldl_max (l : List ℝ) (b : ℝ) : b ≤ l.foldl max b := by
  induction l generalizing b with
  | nil => simp
  | cons a l ih => exact le_trans (le_max_left b a) (ih (max b a))

lemma mem_le_foldl_max (l : List ℝ) (b : ℝ) : ∀ x ∈ l, x ≤ l.foldl max b := by
  induction l generalizing b with
  | nil => simp
  | cons a l ih =>
    intro x hx
    rcases List.mem_cons.mp hx with h | h
    · subst h
      exact le_trans (le_max_right b x) (le_foldl_max l (max b x))
    · exact ih (max b a) x h

lemma foldl_max_mem (l : List ℝ) (b : ℝ) : l.foldl max b = b ∨ l.foldl max b ∈ l := by
  induction l generalizing b with
  | nil => simp
  | cons a l ih =>
    rcases ih (max b a) with h | h
    · rcases max_choice b a with hh | hh
      · left
        rw [List.foldl_cons, h, hh]
      · right
        rw [List.foldl_cons, h, hh]
        exact List.mem_cons_self a l
    · right
      rw [List.foldl_cons]
      exact List.mem_cons_of_mem a h

lemma pymax_ge (l : List ℝ) : ∀ x ∈ l, x ≤ pymax l := by
  cases l with
  | nil => simp
  | cons a l =>
    intro x hx
    rcases List.mem_cons.mp hx with h | h
    · subst h
      exact le_foldl_max l x
    · exact mem_le_foldl_max l a x h

lemma pymax_mem (l : List ℝ) (h : l ≠ []) : pymax l ∈ l := by
  cases l with
  | nil => exact absurd rfl h
  | cons a l =>
    rcases foldl_max_mem l a with h1 | h1
    · rw [pymax, h1]
      exact List.mem_cons_self a l
    · exact List.mem_cons_of_mem a h1

lemma sum_map_succ_shift (l : List ℕ) (f g : ℕ → ℕ) (h : ∀ o ∈ l, f o = g o + 1) :
    (l.map f).sum = (l.map g).sum + l.length := by
  induction l with
  | nil => simp
  | cons a l ih =>
    simp only [List.map_cons, List.sum_cons, List.length_cons,
      h a (List.mem_cons_self a l),
      ih fun o ho => h o (List.mem_cons_of_mem a ho)]
    omega

lemma sum_range_descending (k : ℕ) :
    ((List.range k).map fun o => k - o).sum * 2 = k * (k + 1) := by
  induction k with
  | zero => simp
  | succ j ih =>
    rw [List.range_succ]
    simp only [List.map_append, List.map_cons, List.map_nil, List.sum_append,
      List.sum_cons, List.sum_nil]
    rw [sum_map_succ_shift (List.range j) (fun o => j + 1 - o) (fun o => j - o)
      (fun o ho => by have := List.mem_range.mp ho; simp only []; omega)]
    simp only [List.length_range]
    have hone : j + 1 - j = 1 := by omega
    rw [hone]
    zify at ih ⊢
    ring_nf at ih ⊢
    linarith

/-- Number of pairs delivered by the double loop. -/
lemma pairs_length (n : ℕ) : (pairs n).length = n * (n - 1) / 2 := by
  have h2 : (pairs n).length * 2 = n * (n - 1) := by
    rw [pairs, List.length_flatMap]
    have hcong : ∀ o ∈ List.range (n - 1),
        (((List.range' (o + 1) (n - (o + 1))).map fun p => (o, p)).length = (n - 1) - o) := by
      intro o ho
      have := List.mem_range.mp ho
      simp only [List.length_map, List.length_range']
      omega
    calc ((List.range (n - 1)).map fun o =>
            ((List.range' (o + 1) (n - (o + 1))).map fun p => (o, p)).length).sum * 2
        = ((List.range (n - 1)).map fun o => (n - 1) - o).sum * 2 := by
          rw [List.map_congr_left hcong]
      _ = (n - 1) * (n - 1 + 1) := sum_range_descending (n - 1)
      _ = n * (n - 1) := by
          cases n with
          | zero => simp
          | succ m =>
            simp only [Nat.succ_sub_one]
            ring
  omega

/-- Membership in the pair enumeration. -/
lemma pairs_mem (n : ℕ) (u : ℕ × ℕ) : u ∈ pairs n ↔ u.1 < u.2 ∧ u.2 < n := by
  rcases u with ⟨o, p⟩
  simp only [pairs, List.mem_flatMap, List.mem_range, List.mem_map, List.mem_range'_1,
    Prod.mk.injEq]
  constructor
  · rintro ⟨a, ha, q, hq, rfl, rfl⟩
    omega
  · rintro ⟨h1, h2⟩
    exact ⟨o, by omega, p, by omega, rfl, rfl⟩

/-- The pair enumeration is strictly increasing in the lexicographic order
(ascending `o`, then ascending `p`). -/
lemma pairs_sorted (n : ℕ) :
    (pairs n).Pairwise fun u w => u.1 < w.1 ∨ (u.1 = w.1 ∧ u.2 < w.2) := by
  rw [pairs]
  have main : ∀ os : List ℕ, os.Pairwise (· < ·) →
      (os.flatMap fun o => (List.range' (o + 1) (n - (o + 1))).map fun p => (o, p)).Pairwise
        fun u w => u.1 < w.1 ∨ (u.1 = w.1 ∧ u.2 < w.2) := by
    intro os hos
    induction os with
    | nil => simp
    | cons o os ih =>
      rw [List.flatMap_cons, List.pairwise_append]
      refine ⟨?_, ih (List.Pairwise.of_cons hos), ?_⟩
      · rw [List.pairwise_map]
        exact (List.pairwise_lt_range' _ _).imp fun h => Or.inr ⟨rfl, h⟩
      · intro x hx y hy
        rcases List.mem_map.mp hx with ⟨px, _, rfl⟩
        rcases List.mem_flatMap.mp hy with ⟨o2, ho2, hy2⟩
        rcases List.mem_map.mp hy2 with ⟨py, _, rfl⟩
        exact Or.inl ((List.pairwise_cons.mp hos).1 o2 ho2)
  exact main _ (List.pairwise_lt_range _)

open scoped Classical

/-- Two-argument arctangent `np.arctan2(y, x)`: the argument of the complex
number `x + i y`, with values in `(-pi, pi]` and `arctan2 0 0 = 0`, matching
the numpy convention. -/
noncomputable def arctan2 (y x : ℝ) : ℝ := Complex.arg ⟨x, y⟩

/-- `distang(x, y)`: distance and angle of every unique point pair, in the
double-loop order of `pairs`, together with `xr = max(r)` and `n = len(x)`.
`r[k] = sqrt(dx**2 + dy**2)`, `t[k] = arctan2(dy, dx)` with
`dx = x[p] - x[o]`, `dy = y[p] - y[o]`. -/
noncomputable def distang (x y : List ℝ) : List ℝ × List ℝ × ℝ × ℕ :=
  let n := x.length
  let r := (pairs n).map fun op =>
    Real.sqrt ((x.getD op.2 0 - x.getD op.1 0) ^ 2 + (y.getD op.2 0 - y.getD op.1 0) ^ 2)
  let t := (pairs n).map fun op =>
    arctan2 (y.getD op.2 0 - y.getD op.1 0) (x.getD op.2 0 - x.getD op.1 0)
  (r, t, pymax r, n)

/-- The orchestrator step `t = np.where(t == -180, 180, t)` (the comparison is
against the number `-180` even though `t` holds radians). -/
noncomputable def remapT (t : List ℝ) : List ℝ :=
  t.map fun v => if v = -180 then 180 else v

/-- `np.deg2rad`: degrees to radians. -/
noncomputable def deg2rad (d : ℝ) : ℝ := d * Real.pi / 180

/-- Distance gate of the inner loop: `s*L < abs(r[k]) < (s+1)*L`. -/
def inBin (L : ℝ) (s : ℕ) (rk : ℝ) : Prop :=
  (s : ℝ) * L < |rk| ∧ |rk| < ((s : ℝ) + 1) * L

/-- One directional window test of `semivario` for a window centred at `a`
with half-width `ta` and buffer `b`, applied to the pair angle `tk`.  The
three branches are the literal wraparound cases of the source:
high overflow (`a+ta+b > deg2rad 180`), low overflow
(`a-ta-b < -deg2rad 180`), and the plain interval. -/
noncomputable def dirInc (a ta b tk : ℝ) : Prop :=
  if a + ta + b > deg2rad 180 then
    (a - ta - b < tk ∧ tk < a) ∨ (a < tk ∧ tk < deg2rad 180 + b) ∨
      (-deg2rad 180 - b < tk ∧ tk < -deg2rad 360 + (a + ta + b))
  else if a - ta - b < -deg2rad 180 then
    (a < tk ∧ tk < a + ta + b) ∨ (-deg2rad 180 - b < tk ∧ tk < a) ∨
      (deg2rad 360 + (a - ta - b) < tk ∧ tk < deg2rad 180 + b)
  else
    a - ta - b < tk ∧ tk < a + ta + b

/-- Contribution of one pair that passed the distance gate: the pair
`(increment to g[s], increment to q)`.  In `directional` mode the window test
around `a` and the window test around the folded centre `m` are two separate
`if` blocks in the source, each adding `(z[p]-z[o])**2` and incrementing `q`
independently. -/
noncomputable def pairContrib (ty : SVType) (a ta b m tk sq : ℝ) : ℝ × ℕ :=
  match ty with
  | .omni => (sq, 1)
  | .directional =>
      (if dirInc a ta b tk then ((sq, 1) : ℝ × ℕ) else (0, 0)) +
        (if dirInc m ta b tk then ((sq, 1) : ℝ × ℕ) else (0, 0))
  | .dirOri => if dirInc a ta b tk then (sq, 1) else (0, 0)

/-- Accumulation of `g[s]` and `q` over all pairs for one lag `s`.  Each
observation is `(r[k], t[k], (z[p]-z[o])**2)`. -/
noncomputable def binSum (ty : SVType) (a ta b m L : ℝ) (s : ℕ)
    (obs : List (ℝ × ℝ × ℝ)) : ℝ × ℕ :=
  obs.foldr
    (fun ob acc =>
      if inBin L s ob.1 then pairContrib ty a ta b m ob.2.1 ob.2.2 + acc else acc)
    (0, 0)

/-- The observation stream of `semivario`: the pair index `k` walks the same
double loop as `distang`, so pair `k` carries `(r[k], t[k], (z[p]-z[o])**2)`. -/
noncomputable def svObs (r t z : List ℝ) (n : ℕ) : List (ℝ × ℝ × ℝ) :=
  ((pairs n).zip (r.zip t)).map fun ob =>
    (ob.2.1, ob.2.2, (z.getD ob.1.2 0 - z.getD ob.1.1 0) ^ 2)

/-- The lag size `L = xr/nL`. -/
noncomputable def lagWidth (xr : ℝ) (nL : ℕ) : ℝ := xr / (nL : ℝ)

/-- The folded window centre of `directional` mode:
`m = deg2rad(di+180)` when `a < 0`, else `deg2rad(di-180)`. -/
noncomputable def foldCenter (di : ℝ) : ℝ :=
  if deg2rad di < 0 then deg2rad (di + 180) else deg2rad (di - 180)

/-- One per-lag row of `semivario`, before the NaN deletion step: the centre
`s*L + L/2`, the semivariance `g[s]/(q*2)` (`none` models the `np.nan`
written when `q == 0`), and the sample count `q`. -/
noncomputable def svRow (ty : SVType) (a ta b m L : ℝ) (obs : List (ℝ × ℝ × ℝ))
    (s : ℕ) : ℝ × Option ℝ × ℕ :=
  ((s : ℝ) * L + L / 2,
   if (binSum ty a ta b m L s obs).2 = 0 then none
   else some ((binSum ty a ta b m L s obs).1 / (((binSum ty a ta b m L s obs).2 : ℝ) * 2)),
   (binSum ty a ta b m L s obs).2)

/-- All per-lag rows of `semivario`. -/
noncomputable def svRows (r t : List ℝ) (xr : ℝ) (n : ℕ) (z : List ℝ)
    (nL : ℕ) (di td : ℝ) (ty : SVType) : List (ℝ × Option ℝ × ℕ) :=
  (List.range nL).map
    (svRow ty (deg2rad di) (deg2rad td) (deg2rad 0.01) (foldCenter di)
      (lagWidth xr nL) (svObs r t z n))

/-- `semivario(r, t, xr, n, z, nL, di, td, type)`: the experimental
semivariogram for one direction.  Returns `(h, g, c)` after deleting every
lag whose semivariance is NaN (`q == 0`), exactly as the three `np.delete`
calls do. -/
noncomputable def semivario (r t : List ℝ) (xr : ℝ) (n : ℕ) (z : List ℝ)
    (nL : ℕ) (di td : ℝ) (ty : SVType) : List ℝ × List ℝ × List ℝ :=
  let kept := (svRows r t xr n z nL di td ty).filter fun row => row.2.1.isSome
  (kept.map fun row => row.1,
   kept.map fun row => row.2.1.getD 0,
   kept.map fun row => ((row.2.2 : ℕ) : ℝ))

/-- Exponential semivariogram model `expvar`. -/
noncomputable def expvar (h c0 ce a0 : ℝ) : ℝ :=
  c0 + ce * (1 - Real.exp (-|h| / a0))

/-- Range of the exponential model at a given sill, `exprange`. -/
noncomputable def exprange (sill c0 ce a0 : ℝ) : ℝ :=
  -Real.log (-(sill * 0.95 - c0) / ce + 1) * a0

/-- Spherical semivariogram model `sphvar` (the `np.where` selects the
polynomial branch when `0 <= abs(h) <= a0`). -/
noncomputable def sphvar (h c0 ce a0 : ℝ) : ℝ :=
  if 0 ≤ |h| ∧ |h| ≤ a0 then
    c0 + ce * ((3 / 2) * (|h| / a0) - (1 / 2) * (|h| / a0) ^ 3)
  else c0 + ce

/-- Range of the spherical model, `sphrange` (ignores all but `a0`, like the
source). -/
noncomputable def sphrange (_sill _c0 _ce a0 : ℝ) : ℝ := a0

/-- Gaussian semivariogram model `gauvar`. -/
noncomputable def gauvar (h c0 ce a0 : ℝ) : ℝ :=
  c0 + ce * (1 - Real.exp (-h ^ 2 / a0 ^ 2))

/-- Range of the gaussian model at a given sill, `gaurange`. -/
noncomputable def gaurange (sill c0 ce a0 : ℝ) : ℝ :=
  Real.sqrt (-a0 ^ 2 * Real.log (-(sill * 0.95 - c0) / ce + 1))

/-- The closed form the specification gives for the spherical model:
`c0 + ce*(1.5*(h/a0) - 0.5*(h/a0)^3)` for `0 <= abs(h) <= a0`, else
`c0 + ce` (written from the words of the spec, for comparison with
`sphvar`). -/
noncomputable def specSphvar (h c0 ce a0 : ℝ) : ℝ :=
  if 0 ≤ |h| ∧ |h| ≤ a0 then
    c0 + ce * ((3 / 2) * (h / a0) - (1 / 2) * (h / a0) ^ 3)
  else c0 + ce

/-- The closed form the specification gives for the gaussian effective
range: `a0 * sqrt(-ln(1 - (0.95*sill - c0)/ce))` (written from the words of
the spec, for comparison with `gaurange`). -/
noncomputable def specGaurange (sill c0 ce a0 : ℝ) : ℝ :=
  a0 * Real.sqrt (-Real.log (1 - (0.95 * sill - c0) / ce))

/-- Python exception kinds raised by the validation prologue of
`semivariogram` (messages omitted). -/
inductive PyExc
  | typeError
  | nameError
deriving DecidableEq

/-- The `di` range check of the source, written there as
`(np.array(di).any() > 180) or (np.array(di).any() < -180)`: `any()` returns
a boolean (an integer 0 or 1), and it is this 0-or-1 value that is compared
with `180` and `-180`. -/
noncomputable def diRangeCheck (di : List ℝ) : Prop :=
  ((if di.any (fun d => decide (d ≠ 0)) then (1 : ℤ) else 0) > 180) ∨
    ((if di.any (fun d => decide (d ≠ 0)) then (1 : ℤ) else 0) < -180)

/-- The validation prologue of `semivariogram`, in source order: the shape
check, the `directional`-negative-angle check, the `di` range check and the
tolerance check. -/
noncomputable def validate (x y v : List ℝ) (ty : String) (di : List ℝ) (td : ℝ) :
    Except PyExc Unit :=
  if x.length ≠ y.length ∨ y.length ≠ v.length then .error .typeError
  else if ty = "directional" ∧ di.any (fun d => decide (d < 0)) then .error .typeError
  else if diRangeCheck di then .error .typeError
  else if td > 180 then .error .typeError
  else .ok ()

lemma deg2rad_180 : deg2rad 180 = Real.pi := by
  rw [deg2rad]
  ring

lemma deg2rad_360 : deg2rad 360 = 2 * Real.pi := by
  rw [deg2rad]
  ring

lemma deg2rad_zero : deg2rad 0 = 0 := by
  rw [deg2rad]
  ring

lemma deg2rad_buffer : deg2rad 0.01 = Real.pi / 18000 := by
  rw [deg2rad]
  norm_num
  ring

lemma buffer_pos : 0 < deg2rad 0.01 := by
  rw [deg2rad_buffer]
  linarith [Real.pi_pos]

lemma buffer_lt_pi : deg2rad 0.01 < Real.pi := by
  rw [deg2rad_buffer]
  linarith [Real.pi_pos]

lemma deg2rad_le_pi {d : ℝ} (h1 : -180 ≤ d) (h2 : d ≤ 180) :
    -Real.pi ≤ deg2rad d ∧ deg2rad d ≤ Real.pi := by
  rw [deg2rad]
  constructor
  · nlinarith [Real.pi_pos]
  · nlinarith [Real.pi_pos]

/-- With full tolerance `td = 180`, the window test includes exactly the
angles different from the centre `a` (for angles in the arctangent range
`(-pi, pi]` and a centre in `[-pi, pi]`): the split windows of the source
are open at `a`, so the centre itself falls through. -/
lemma dirInc_full_tol (a tk : ℝ) (ht1 : -Real.pi < tk) (ht2 : tk ≤ Real.pi) :
    dirInc a (deg2rad 180) (deg2rad 0.01) tk ↔ tk ≠ a := by
  have hb0 : 0 < deg2rad 0.01 := buffer_pos
  have hbp : deg2rad 0.01 < Real.pi := buffer_lt_pi
  set b := deg2rad 0.01 with hbdef
  rw [dirInc, deg2rad_180, deg2rad_360]
  by_cases hc : a + Real.pi + b > Real.pi
  · rw [if_pos hc]
    constructor
    · rintro (⟨h1, h2⟩ | ⟨h1, h2⟩ | ⟨h1, h2⟩)
      · exact ne_of_lt h2
      · exact ne_of_gt h1
      · exact ne_of_lt (by linarith)
    · intro hne
      rcases lt_or_gt_of_ne hne with hlt | hgt
      · by_cases h3 : a - Real.pi - b < tk
        · exact Or.inl ⟨h3, hlt⟩
        · exact Or.inr (Or.inr ⟨by linarith, by linarith⟩)
      · exact Or.inr (Or.inl ⟨hgt, by linarith⟩)
  · have hc2 : a - Real.pi - b < -Real.pi := by linarith
    rw [if_neg hc, if_pos hc2]
    constructor
    · rintro (⟨h1, h2⟩ | ⟨h1, h2⟩ | ⟨h1, h2⟩)
      · exact ne_of_gt h1
      · exact ne_of_lt h2
      · exact ne_of_gt (by linarith)
    · intro hne
      rcases lt_or_gt_of_ne hne with hlt | hgt
      · exact Or.inr (Or.inl ⟨by linarith, hlt⟩)
      · by_cases h3 : tk < a + Real.pi + b
        · exact Or.inl ⟨hgt, h3⟩
        · exact Or.inr (Or.inr ⟨by linarith, by linarith⟩)

lemma binSum_nil (ty : SVType) (a ta b m L : ℝ) (s : ℕ) :
    binSum ty a ta b m L s [] = (0, 0) := rfl

lemma binSum_cons (ty : SVType) (a ta b m L : ℝ) (s : ℕ) (ob : ℝ × ℝ × ℝ)
    (obs : List (ℝ × ℝ × ℝ)) :
    binSum ty a ta b m L s (ob :: obs) =
      if inBin L s ob.1 then
        pairContrib ty a ta b m ob.2.1 ob.2.2 + binSum ty a ta b m L s obs
      else binSum ty a ta b m L s obs := rfl

/-- In omnidirectional mode the accumulator collects exactly the squared
differences of the pairs whose distance passes the open bin gate, and `q`
counts those pairs. -/
lemma binSum_omni (a ta b m L : ℝ) (s : ℕ) (obs : List (ℝ × ℝ × ℝ)) :
    binSum .omni a ta b m L s obs =
      (((obs.filter fun ob => decide (inBin L s ob.1)).map fun ob => ob.2.2).sum,
       (obs.filter fun ob => decide (inBin L s ob.1)).length) := by
  induction obs with
  | nil => rfl
  | cons ob obs ih =>
    rw [binSum_cons, ih]
    by_cases h : inBin L s ob.1
    · rw [if_pos h]
      simp [List.filter_cons, h, pairContrib, Prod.ext_iff, Nat.add_comm]
    · rw [if_neg h]
      simp [List.filter_cons, h]

/-- Number of pairs assigned to lag `s` (the length of the `inBin` filter of
the observation stream). -/
noncomputable def lagCount (r t z : List ℝ) (xr : ℝ) (n nL s : ℕ) : ℕ :=
  ((svObs r t z n).filter fun ob => decide (inBin (lagWidth xr nL) s ob.1)).length

/-- Sum of squared value differences of the pairs assigned to lag `s`. -/
noncomputable def lagSum (r t z : List ℝ) (xr : ℝ) (n nL s : ℕ) : ℝ :=
  (((svObs r t z n).filter fun ob => decide (inBin (lagWidth xr nL) s ob.1)).map
    fun ob => ob.2.2).sum

/-- Closed form of the omnidirectional output of `semivario`: the emitted
lags are the `s < nL` with at least one assigned pair, in increasing lag
order, with centre `s*L + L/2`, semivariance `lagSum/(2*lagCount)` and
sample count `lagCount`. -/
lemma semivario_omni_eq (r t z : List ℝ) (xr : ℝ) (n nL : ℕ) (di td : ℝ) :
    semivario r t xr n z nL di td .omni =
      (((List.range nL).filter fun s => decide (lagCount r t z xr n nL s ≠ 0)).map
          fun s : ℕ => (s : ℝ) * lagWidth xr nL + lagWidth xr nL / 2,
       ((List.range nL).filter fun s => decide (lagCount r t z xr n nL s ≠ 0)).map
          fun s => lagSum r t z xr n nL s / (2 * (lagCount r t z xr n nL s : ℝ)),
       ((List.range nL).filter fun s => decide (lagCount r t z xr n nL s ≠ 0)).map
          fun s => (lagCount r t z xr n nL s : ℝ)) := by
  have hgq : ∀ s : ℕ,
      binSum .omni (deg2rad di) (deg2rad td) (deg2rad 0.01) (foldCenter di)
          (lagWidth xr nL) s (svObs r t z n)
        = (lagSum r t z xr n nL s, lagCount r t z xr n nL s) := by
    intro s
    rw [binSum_omni]
    rfl
  rw [semivario, svRows, List.filter_map]
  have hpred : ∀ s ∈ List.range nL,
      ((fun row : ℝ × Option ℝ × ℕ => row.2.1.isSome) ∘
          svRow .omni (deg2rad di) (deg2rad td) (deg2rad 0.01) (foldCenter di)
            (lagWidth xr nL) (svObs r t z n)) s
        = decide (lagCount r t z xr n nL s ≠ 0) := by
    intro s _
    simp only [Function.comp_apply, svRow, hgq s]
    by_cases h : lagCount r t z xr n nL s = 0
    · simp [h]
    · simp [h]
  rw [List.filter_congr hpred, List.map_map, List.map_map, List.map_map]
  refine congrArg₂ _ ?_ (congrArg₂ _ ?_ ?_)
  · apply List.map_congr_left
    intro s hs
    simp only [Function.comp_apply, svRow]
  · apply List.map_congr_left
    intro s hs
    have hcnt : lagCount r t z xr n nL s ≠ 0 := by
      have := (List.mem_filter.mp hs).2
      simpa using this
    simp only [Function.comp_apply, svRow, hgq s, if_neg hcnt, Option.getD_some]
    rw [mul_comm]
  · apply List.map_congr_left
    intro s hs
    simp only [Function.comp_apply, svRow, hgq s]

lemma inBin_zero_width (nL s : ℕ) (rk : ℝ) : ¬ inBin (lagWidth 0 nL) s rk := by
  rintro ⟨h1, h2⟩
  rw [lagWidth, zero_div, mul_zero] at h1 h2
  exact absurd (h1.trans h2) (by simp [abs_nonneg])

lemma lagCount_zero_width (r t z : List ℝ) (n nL s : ℕ) :
    lagCount r t z 0 n nL s = 0 := by
  rw [lagCount, List.length_eq_zero]
  rw [List.filter_eq_nil_iff]
  intro ob _
  simpa using inBin_zero_width nL s ob.1

/-- Emitted lag centres are strictly increasing. -/
lemma emitted_centres_mono (r t z : List ℝ) (xr : ℝ) (n nL : ℕ) (hxr : 0 ≤ xr) :
    (((List.range nL).filter fun s => decide (lagCount r t z xr n nL s ≠ 0)).map
      fun s : ℕ => (s : ℝ) * lagWidth xr nL + lagWidth xr nL / 2).Pairwise (· < ·) := by
  rcases Nat.eq_zero_or_pos nL with h0 | h0
  · simp [h0]
  rcases eq_or_lt_of_le hxr with hz | hpos
  · have hnil : ((List.range nL).filter fun s => decide (lagCount r t z xr n nL s ≠ 0)) = [] := by
      rw [List.filter_eq_nil_iff]
      intro s _
      simp [← hz, lagCount_zero_width]
    rw [hnil]
    simp
  · have hL : 0 < lagWidth xr nL := by
      rw [lagWidth]
      have : (0 : ℝ) < (nL : ℝ) := by exact_mod_cast h0
      positivity
    rw [List.pairwise_map]
    refine ((List.pairwise_lt_range nL).filter _).imp ?_
    intro s s' hss
    have hcast : (s : ℝ) < (s' : ℝ) := by exact_mod_cast hss
    nlinarith

/-- C1: for at least 2 points and `nLags >= 1`, the omnidirectional binner
assigns a pair to lag `s` exactly when its distance is strictly inside
`(s*L, (s+1)*L)` with `L = xr/nLags` (the accumulated sum and count of each
lag equal the sum and the number of the `inBin`-filtered pairs); each
emitted semivariance is the lag sum divided by twice the lag count; lags
with zero assigned pairs are dropped from the output; and the emitted
entries follow strictly increasing lag order with centre `s*L + L/2`. -/
theorem C1_omnidirectional_binner (r t z : List ℝ) (xr : ℝ) (n nL : ℕ) (di td : ℝ)
    (hn : 2 ≤ n) (hnL : 1 ≤ nL) (hxr : 0 ≤ xr) :
    (∀ s : ℕ,
      binSum .omni (deg2rad di) (deg2rad td) (deg2rad 0.01) (foldCenter di)
          (lagWidth xr nL) s (svObs r t z n)
        = (lagSum r t z xr n nL s, lagCount r t z xr n nL s))
  ∧ semivario r t xr n z nL di td .omni =
      (((List.range nL).filter fun s => decide (lagCount r t z xr n nL s ≠ 0)).map
          fun s : ℕ => (s : ℝ) * lagWidth xr nL + lagWidth xr nL / 2,
       ((List.range nL).filter fun s => decide (lagCount r t z xr n nL s ≠ 0)).map
          fun s => lagSum r t z xr n nL s / (2 * (lagCount r t z xr n nL s : ℝ)),
       ((List.range nL).filter fun s => decide (lagCount r t z xr n nL s ≠ 0)).map
          fun s => (lagCount r t z xr n nL s : ℝ))
  ∧ (((List.range nL).filter fun s => decide (lagCount r t z xr n nL s ≠ 0)).map
      fun s : ℕ => (s : ℝ) * lagWidth xr nL + lagWidth xr nL / 2).Pairwise (· < ·) := by
  refine ⟨?_, semivario_omni_eq r t z xr n nL di td,
    emitted_centres_mono r t z xr n nL hxr⟩
  intro s
  rw [binSum_omni]
  rfl

/-- Witness for C1 at a concrete three-point input with two lags. -/
theorem C1_omnidirectional_binner_witness :
    (∀ s : ℕ,
      binSum .omni (deg2rad 0) (deg2rad 180) (deg2rad 0.01) (foldCenter 0)
          (lagWidth 3 2) s (svObs [1, 3, 2] [0, 0, 0] [0, 1, 0] 3)
        = (lagSum [1, 3, 2] [0, 0, 0] [0, 1, 0] 3 3 2 s,
           lagCount [1, 3, 2] [0, 0, 0] [0, 1, 0] 3 3 2 s))
  ∧ semivario [1, 3, 2] [0, 0, 0] 3 3 [0, 1, 0] 2 0 180 .omni =
      (((List.range 2).filter fun s =>
          decide (lagCount [1, 3, 2] [0, 0, 0] [0, 1, 0] 3 3 2 s ≠ 0)).map
          fun s : ℕ => (s : ℝ) * lagWidth 3 2 + lagWidth 3 2 / 2,
       ((List.range 2).filter fun s =>
          decide (lagCount [1, 3, 2] [0, 0, 0] [0, 1, 0] 3 3 2 s ≠ 0)).map
          fun s => lagSum [1, 3, 2] [0, 0, 0] [0, 1, 0] 3 3 2 s /
            (2 * (lagCount [1, 3, 2] [0, 0, 0] [0, 1, 0] 3 3 2 s : ℝ)),
       ((List.range 2).filter fun s =>
          decide (lagCount [1, 3, 2] [0, 0, 0] [0, 1, 0] 3 3 2 s ≠ 0)).map
          fun s => (lagCount [1, 3, 2] [0, 0, 0] [0, 1, 0] 3 3 2 s : ℝ))
  ∧ (((List.range 2).filter fun s =>
        decide (lagCount [1, 3, 2] [0, 0, 0] [0, 1, 0] 3 3 2 s ≠ 0)).map
        fun s : ℕ => (s : ℝ) * lagWidth 3 2 + lagWidth 3 2 / 2).Pairwise (· < ·) :=
  C1_omnidirectional_binner [1, 3, 2] [0, 0, 0] [0, 1, 0] 3 3 2 0 180
    (by norm_num) (by norm_num) (by norm_num)

/-- When every pair angle passes the window test, directed mode accumulates
exactly like omnidirectional mode. -/
lemma binSum_dirOri_of_inc (a ta b m L : ℝ) (s : ℕ) (obs : List (ℝ × ℝ × ℝ))
    (h : ∀ ob ∈ obs, dirInc a ta b ob.2.1) :
    binSum .dirOri a ta b m L s obs = binSum .omni a ta b m L s obs := by
  induction obs with
  | nil => rfl
  | cons ob obs ih =>
    rw [binSum_cons, binSum_cons,
      ih fun x hx => h x (List.mem_cons_of_mem ob hx)]
    have hc : pairContrib .dirOri a ta b m ob.2.1 ob.2.2
        = pairContrib .omni a ta b m ob.2.1 ob.2.2 := by
      rw [pairContrib, pairContrib, if_pos (h ob (List.mem_cons_self ob obs))]
    rw [hc]

/-- When every pair angle passes both the centre window and the fold window,
undirected (`directional`) mode adds every included pair twice: the sum and
the count are both doubled relative to omnidirectional mode. -/
lemma binSum_directional_of_inc (a ta b m L : ℝ) (s : ℕ) (obs : List (ℝ × ℝ × ℝ))
    (h1 : ∀ ob ∈ obs, dirInc a ta b ob.2.1) (h2 : ∀ ob ∈ obs, dirInc m ta b ob.2.1) :
    binSum .directional a ta b m L s obs =
      (2 * (binSum .omni a ta b m L s obs).1, 2 * (binSum .omni a ta b m L s obs).2) := by
  induction obs with
  | nil =>
    rw [binSum_nil, binSum_nil]
    norm_num
  | cons ob obs ih =>
    rw [binSum_cons, binSum_cons,
      ih (fun x hx => h1 x (List.mem_cons_of_mem ob hx))
         (fun x hx => h2 x (List.mem_cons_of_mem ob hx))]
    have hc : pairContrib .directional a ta b m ob.2.1 ob.2.2
        = (2 * ob.2.2, 2) := by
      rw [pairContrib, if_pos (h1 ob (List.mem_cons_self ob obs)),
        if_pos (h2 ob (List.mem_cons_self ob obs)), Prod.mk_add_mk]
      norm_num
      ring
    by_cases hg : inBin L s ob.1
    · rw [if_pos hg, if_pos hg, hc, pairContrib, Prod.mk_add_mk, Prod.mk_add_mk]
      refine Prod.ext ?_ ?_
      · simp only []
        ring
      · simp only []
        omega
    · rw [if_neg hg, if_neg hg]

/-- Every angle in the observation stream comes from the angle list `t`. -/
lemma svObs_angle_mem (r t z : List ℝ) (n : ℕ) (ob : ℝ × ℝ × ℝ)
    (hob : ob ∈ svObs r t z n) : ob.2.1 ∈ t := by
  rw [svObs] at hob
  rcases List.mem_map.mp hob with ⟨x, hx, rfl⟩
  rcases x with ⟨op, rk, tk⟩
  exact (List.of_mem_zip (List.of_mem_zip hx).2).2

/-- When every pair angle is inside the window, directed mode and
omnidirectional mode produce the same series. -/
lemma semivario_dirOri_eq_omni (r t z : List ℝ) (xr : ℝ) (n nL : ℕ) (di td : ℝ)
    (hinc : ∀ ob ∈ svObs r t z n, dirInc (deg2rad di) (deg2rad td) (deg2rad 0.01) ob.2.1) :
    semivario r t xr n z nL di td .dirOri = semivario r t xr n z nL di td .omni := by
  have hrows : svRows r t xr n z nL di td .dirOri = svRows r t xr n z nL di td .omni := by
    rw [svRows, svRows]
    apply List.map_congr_left
    intro s _
    rw [svRow, svRow, binSum_dirOri_of_inc _ _ _ _ _ _ _ hinc]
  rw [semivario, semivario, hrows]

/-- When every pair angle is inside both the centre window and the fold
window, undirected mode delivers the same lag centres and semivariances as
omnidirectional mode with every sample count doubled. -/
lemma semivario_directional_eq_doubled (r t z : List ℝ) (xr : ℝ) (n nL : ℕ) (di td : ℝ)
    (hinc1 : ∀ ob ∈ svObs r t z n, dirInc (deg2rad di) (deg2rad td) (deg2rad 0.01) ob.2.1)
    (hinc2 : ∀ ob ∈ svObs r t z n, dirInc (foldCenter di) (deg2rad td) (deg2rad 0.01) ob.2.1) :
    (semivario r t xr n z nL di td .directional).1
        = (semivario r t xr n z nL di td .omni).1
  ∧ (semivario r t xr n z nL di td .directional).2.1
        = (semivario r t xr n z nL di td .omni).2.1
  ∧ (semivario r t xr n z nL di td .directional).2.2
        = ((semivario r t xr n z nL di td .omni).2.2).map fun c => 2 * c := by
  have hrow : ∀ s ∈ List.range nL,
      svRow .directional (deg2rad di) (deg2rad td) (deg2rad 0.01) (foldCenter di)
          (lagWidth xr nL) (svObs r t z n) s
        = ((svRow .omni (deg2rad di) (deg2rad td) (deg2rad 0.01) (foldCenter di)
              (lagWidth xr nL) (svObs r t z n) s).1,
           (svRow .omni (deg2rad di) (deg2rad td) (deg2rad 0.01) (foldCenter di)
              (lagWidth xr nL) (svObs r t z n) s).2.1,
           2 * (svRow .omni (deg2rad di) (deg2rad td) (deg2rad 0.01) (foldCenter di)
              (lagWidth xr nL) (svObs r t z n) s).2.2) := by
    intro s _
    rw [svRow, svRow,
      binSum_directional_of_inc _ _ _ _ _ _ _ hinc1 hinc2]
    refine Prod.ext rfl (Prod.ext ?_ rfl)
    simp only []
    by_cases hq : (binSum .omni (deg2rad di) (deg2rad td) (deg2rad 0.01) (foldCenter di)
        (lagWidth xr nL) s (svObs r t z n)).2 = 0
    · simp [hq]
    · have h2q : 2 * (binSum .omni (deg2rad di) (deg2rad td) (deg2rad 0.01) (foldCenter di)
          (lagWidth xr nL) s (svObs r t z n)).2 ≠ 0 := by omega
      rw [if_neg hq, if_neg h2q]
      congr 1
      have hcast : ((binSum .omni (deg2rad di) (deg2rad td) (deg2rad 0.01) (foldCenter di)
          (lagWidth xr nL) s (svObs r t z n)).2 : ℝ) ≠ 0 := Nat.cast_ne_zero.mpr hq
      push_cast
      field_simp
      ring
  have hrows : svRows r t xr n z nL di td .directional
      = (svRows r t xr n z nL di td .omni).map
          fun row => (row.1, row.2.1, 2 * row.2.2) := by
    rw [svRows, svRows, List.map_map]
    exact List.map_congr_left hrow
  have hpred : ∀ row ∈ svRows r t xr n z nL di td .omni,
      ((fun row : ℝ × Option ℝ × ℕ => row.2.1.isSome) ∘
        fun row : ℝ × Option ℝ × ℕ => (row.1, row.2.1, 2 * row.2.2)) row
      = (fun row : ℝ × Option ℝ × ℕ => row.2.1.isSome) row := fun _ _ => rfl
  rw [semivario, semivario, hrows, List.filter_map, List.filter_congr hpred]
  refine ⟨?_, ?_, ?_⟩
  · rw [List.map_map, List.map_map]
    rfl
  · rw [List.map_map, List.map_map]
    rfl
  · dsimp only
    simp only [List.map_map]
    apply List.map_congr_left
    intro row _
    simp only [Function.comp_apply]
    push_cast
    ring

lemma deg2rad_neg180 : deg2rad (-180) = -Real.pi := by
  rw [deg2rad]
  ring

lemma foldCenter_zero : foldCenter 0 = -Real.pi := by
  rw [foldCenter, deg2rad_zero, if_neg (lt_irrefl 0),
    show (0 : ℝ) - 180 = -180 by norm_num, deg2rad_neg180]

/-- C2, amended: with tolerance 180 the windows cover every angle except
the window centre itself (the split windows of the source are open at the
centre).  Provided every pair angle is in the arctangent range and differs
from the centre `deg2rad di` and from the folded centre, the series of
`directional+orientational` mode equals the omnidirectional series, and
`directional` mode returns the same lag centres and semivariances with
every sample count doubled (each pair is matched by both the centre and the
fold window and counted twice). -/
theorem C2_full_tolerance_amended (r t z : List ℝ) (xr : ℝ) (n nL : ℕ) (di : ℝ)
    (htr : ∀ v ∈ t, -Real.pi < v ∧ v ≤ Real.pi)
    (hna : ∀ v ∈ t, v ≠ deg2rad di)
    (hnm : ∀ v ∈ t, v ≠ foldCenter di) :
    semivario r t xr n z nL di 180 .dirOri = semivario r t xr n z nL di 180 .omni
  ∧ (semivario r t xr n z nL di 180 .directional).1
      = (semivario r t xr n z nL di 180 .omni).1
  ∧ (semivario r t xr n z nL di 180 .directional).2.1
      = (semivario r t xr n z nL di 180 .omni).2.1
  ∧ (semivario r t xr n z nL di 180 .directional).2.2
      = ((semivario r t xr n z nL di 180 .omni).2.2).map fun c => 2 * c := by
  have hinc1 : ∀ ob ∈ svObs r t z n,
      dirInc (deg2rad di) (deg2rad 180) (deg2rad 0.01) ob.2.1 := by
    intro ob hob
    have hv := svObs_angle_mem r t z n ob hob
    exact (dirInc_full_tol (deg2rad di) ob.2.1 (htr _ hv).1 (htr _ hv).2).mpr (hna _ hv)
  have hinc2 : ∀ ob ∈ svObs r t z n,
      dirInc (foldCenter di) (deg2rad 180) (deg2rad 0.01) ob.2.1 := by
    intro ob hob
    have hv := svObs_angle_mem r t z n ob hob
    exact (dirInc_full_tol (foldCenter di) ob.2.1 (htr _ hv).1 (htr _ hv).2).mpr (hnm _ hv)
  have hd := semivario_directional_eq_doubled r t z xr n nL di 180 hinc1 hinc2
  exact ⟨semivario_dirOri_eq_omni r t z xr n nL di 180 hinc1, hd.1, hd.2.1, hd.2.2⟩

/-- Witness for the amended C2 at a concrete two-point input whose single
pair looks north (angle `pi/2`), direction 0. -/
theorem C2_full_tolerance_amended_witness :
    semivario [1] [Real.pi / 2] 1 2 [0, 1] 1 0 180 .dirOri
        = semivario [1] [Real.pi / 2] 1 2 [0, 1] 1 0 180 .omni
  ∧ (semivario [1] [Real.pi / 2] 1 2 [0, 1] 1 0 180 .directional).1
      = (semivario [1] [Real.pi / 2] 1 2 [0, 1] 1 0 180 .omni).1
  ∧ (semivario [1] [Real.pi / 2] 1 2 [0, 1] 1 0 180 .directional).2.1
      = (semivario [1] [Real.pi / 2] 1 2 [0, 1] 1 0 180 .omni).2.1
  ∧ (semivario [1] [Real.pi / 2] 1 2 [0, 1] 1 0 180 .directional).2.2
      = ((semivario [1] [Real.pi / 2] 1 2 [0, 1] 1 0 180 .omni).2.2).map fun c => 2 * c :=
  C2_full_tolerance_amended [1] [Real.pi / 2] [0, 1] 1 2 1 0
    (by
      intro v hv
      rw [List.mem_singleton] at hv
      subst hv
      constructor
      · linarith [Real.pi_pos]
      · linarith [Real.pi_pos])
    (by
      intro v hv
      rw [List.mem_singleton] at hv
      subst hv
      rw [deg2rad_zero]
      positivity)
    (by
      intro v hv
      rw [List.mem_singleton] at hv
      subst hv
      rw [foldCenter_zero]
      have := Real.pi_pos
      intro hc
      linarith [hc])

lemma pairs_three : pairs 3 = [(0, 1), (0, 2), (1, 2)] := by decide

lemma lagWidth_31 : lagWidth 3 1 = 3 := by
  rw [lagWidth]
  norm_num

lemma pymax_132 : pymax [1, 3, 2] = 3 := by
  rw [pymax]
  simp only [List.foldl_cons, List.foldl_nil]
  rw [max_eq_right (by norm_num : (1 : ℝ) ≤ 3), max_eq_left (by norm_num : (2 : ℝ) ≤ 3)]

lemma arctan2_zero_nonneg (xx : ℝ) (hxx : 0 ≤ xx) : arctan2 0 xx = 0 := by
  rw [arctan2]
  exact Complex.arg_eq_zero_iff.mpr ⟨hxx, rfl⟩

/-- Evaluation of the pairwise geometry on three collinear points on the
x-axis: distances `1, 3, 2`, all angles `0`, maximum distance `3`. -/
lemma distang_line : distang [0, 1, 3] [0, 0, 0] = ([1, 3, 2], [0, 0, 0], 3, 3) := by
  have hmap : distang [0, 1, 3] [0, 0, 0] =
      ([Real.sqrt (((1 : ℝ) - 0) ^ 2 + ((0 : ℝ) - 0) ^ 2),
        Real.sqrt (((3 : ℝ) - 0) ^ 2 + ((0 : ℝ) - 0) ^ 2),
        Real.sqrt (((3 : ℝ) - 1) ^ 2 + ((0 : ℝ) - 0) ^ 2)],
       [arctan2 ((0 : ℝ) - 0) ((1 : ℝ) - 0), arctan2 ((0 : ℝ) - 0) ((3 : ℝ) - 0),
        arctan2 ((0 : ℝ) - 0) ((3 : ℝ) - 1)],
       pymax [Real.sqrt (((1 : ℝ) - 0) ^ 2 + ((0 : ℝ) - 0) ^ 2),
        Real.sqrt (((3 : ℝ) - 0) ^ 2 + ((0 : ℝ) - 0) ^ 2),
        Real.sqrt (((3 : ℝ) - 1) ^ 2 + ((0 : ℝ) - 0) ^ 2)], 3) := rfl
  have h9 : Real.sqrt 9 = 3 := by
    rw [show (9 : ℝ) = 3 ^ 2 by norm_num]
    exact Real.sqrt_sq (by norm_num)
  have h4 : Real.sqrt 4 = 2 := by
    rw [show (4 : ℝ) = 2 ^ 2 by norm_num]
    exact Real.sqrt_sq (by norm_num)
  rw [hmap]
  norm_num [Real.sqrt_one, h9, h4, arctan2_zero_nonneg, pymax_132]

/-- Evaluation of the observation stream of the collinear example. -/
lemma svObs_line : svObs [1, 3, 2] [0, 0, 0] [0, 1, 0] 3
    = [(1, 0, 1), (3, 0, 0), (2, 0, 1)] := by
  have hmap : svObs [1, 3, 2] [0, 0, 0] [0, 1, 0] 3
      = [(1, 0, ((1 : ℝ) - 0) ^ 2), (3, 0, ((0 : ℝ) - 0) ^ 2), (2, 0, ((0 : ℝ) - 1) ^ 2)] := rfl
  rw [hmap]
  norm_num

lemma notInc_center_zero : ¬ dirInc (deg2rad 0) (deg2rad 180) (deg2rad 0.01) 0 := by
  rw [dirInc_full_tol (deg2rad 0) 0 (by linarith [Real.pi_pos]) Real.pi_pos.le,
    deg2rad_zero]
  simp

lemma binSum_dirOri_line_zero :
    binSum .dirOri (deg2rad 0) (deg2rad 180) (deg2rad 0.01) (foldCenter 0) (lagWidth 3 1) 0
      [(1, 0, 1), (3, 0, 0), (2, 0, 1)] = (0, 0) := by
  simp [binSum_cons, binSum_nil, pairContrib, notInc_center_zero, Prod.mk_add_mk]

/-- With direction 0 and full tolerance, the east-pointing collinear pairs
are excluded by the open window boundary at the centre: the series is
empty. -/
lemma semivario_dirOri_line :
    semivario [1, 3, 2] [0, 0, 0] 3 3 [0, 1, 0] 1 0 180 .dirOri = ([], [], []) := by
  have hr1 : List.range 1 = [0] := rfl
  rw [semivario, svRows, svObs_line, hr1, List.map_singleton, svRow,
    binSum_dirOri_line_zero]
  simp

lemma inBin_3_0_1 : inBin 3 0 (1 : ℝ) := by
  rw [inBin, show |(1 : ℝ)| = 1 from abs_of_pos (by norm_num)]
  norm_num

lemma not_inBin_3_0_3 : ¬ inBin 3 0 (3 : ℝ) := by
  rw [inBin, show |(3 : ℝ)| = 3 from abs_of_pos (by norm_num)]
  norm_num

lemma inBin_3_0_2 : inBin 3 0 (2 : ℝ) := by
  rw [inBin, show |(2 : ℝ)| = 2 from abs_of_pos (by norm_num)]
  norm_num

lemma binSum_omni_line :
    binSum .omni (deg2rad 0) (deg2rad 180) (deg2rad 0.01) (foldCenter 0) 3 0
      [(1, 0, 1), (3, 0, 0), (2, 0, 1)] = (2, 2) := by
  rw [binSum_cons, if_pos inBin_3_0_1, binSum_cons, if_neg not_inBin_3_0_3,
    binSum_cons, if_pos inBin_3_0_2, binSum_nil]
  norm_num [pairContrib, Prod.ext_iff]

/-- The omnidirectional series of the collinear example with one lag. -/
lemma semivario_omni_line :
    semivario [1, 3, 2] [0, 0, 0] 3 3 [0, 1, 0] 1 0 180 .omni
      = ([3 / 2], [1 / 2], [2]) := by
  have hr1 : List.range 1 = [0] := rfl
  rw [semivario, svRows, svObs_line, lagWidth_31, hr1, List.map_singleton, svRow,
    binSum_omni_line]
  norm_num

/-- C2 is false as stated: for the collinear three-point input
`x = [0, 1, 3]`, `y = [0, 0, 0]` (all pair angles exactly 0), running the
binner with tolerance 180 in `directional+orientational` mode with
direction 0 returns an empty series, while the omnidirectional run returns
a non-empty one: the split windows of the source exclude the angle equal to
the window centre. -/
theorem C2_counterexample :
    distang [0, 1, 3] [0, 0, 0] = ([1, 3, 2], [0, 0, 0], 3, 3)
  ∧ semivario [1, 3, 2] [0, 0, 0] 3 3 [0, 1, 0] 1 0 180 .dirOri
      ≠ semivario [1, 3, 2] [0, 0, 0] 3 3 [0, 1, 0] 1 0 180 .omni := by
  refine ⟨distang_line, ?_⟩
  rw [semivario_dirOri_line, semivario_omni_line]
  simp

lemma arctan2_pos_y (yy : ℝ) (hyy : 0 < yy) : arctan2 yy 0 = Real.pi / 2 := by
  rw [arctan2]
  have hz : (⟨0, yy⟩ : ℂ) = (yy : ℂ) * Complex.I := by
    apply Complex.ext
    · simp
    · simp
  rw [hz, Complex.arg_real_mul _ hyy, Complex.arg_I]

/-- Evaluation of the pairwise geometry on three collinear points on the
y-axis: distances `1, 3, 2`, all angles `pi/2`, maximum distance `3`. -/
lemma distang_vline : distang [0, 0, 0] [0, 1, 3]
    = ([1, 3, 2], [Real.pi / 2, Real.pi / 2, Real.pi / 2], 3, 3) := by
  have hmap : distang [0, 0, 0] [0, 1, 3] =
      ([Real.sqrt (((0 : ℝ) - 0) ^ 2 + ((1 : ℝ) - 0) ^ 2),
        Real.sqrt (((0 : ℝ) - 0) ^ 2 + ((3 : ℝ) - 0) ^ 2),
        Real.sqrt (((0 : ℝ) - 0) ^ 2 + ((3 : ℝ) - 1) ^ 2)],
       [arctan2 ((1 : ℝ) - 0) ((0 : ℝ) - 0), arctan2 ((3 : ℝ) - 0) ((0 : ℝ) - 0),
        arctan2 ((3 : ℝ) - 1) ((0 : ℝ) - 0)],
       pymax [Real.sqrt (((0 : ℝ) - 0) ^ 2 + ((1 : ℝ) - 0) ^ 2),
        Real.sqrt (((0 : ℝ) - 0) ^ 2 + ((3 : ℝ) - 0) ^ 2),
        Real.sqrt (((0 : ℝ) - 0) ^ 2 + ((3 : ℝ) - 1) ^ 2)], 3) := rfl
  have h9 : Real.sqrt 9 = 3 := by
    rw [show (9 : ℝ) = 3 ^ 2 by norm_num]
    exact Real.sqrt_sq (by norm_num)
  have h4 : Real.sqrt 4 = 2 := by
    rw [show (4 : ℝ) = 2 ^ 2 by norm_num]
    exact Real.sqrt_sq (by norm_num)
  rw [hmap]
  norm_num [Real.sqrt_one, h9, h4, arctan2_pos_y, pymax_132]

/-- Evaluation of the observation stream of the vertical example. -/
lemma svObs_north : svObs [1, 3, 2] [Real.pi / 2, Real.pi / 2, Real.pi / 2] [0, 1, 0] 3
    = [(1, Real.pi / 2, 1), (3, Real.pi / 2, 0), (2, Real.pi / 2, 1)] := by
  have hmap : svObs [1, 3, 2] [Real.pi / 2, Real.pi / 2, Real.pi / 2] [0, 1, 0] 3
      = [(1, Real.pi / 2, ((1 : ℝ) - 0) ^ 2), (3, Real.pi / 2, ((0 : ℝ) - 0) ^ 2),
         (2, Real.pi / 2, ((0 : ℝ) - 1) ^ 2)] := rfl
  rw [hmap]
  norm_num

lemma binSum_omni_north :
    binSum .omni (deg2rad 0) (deg2rad 180) (deg2rad 0.01) (foldCenter 0) 3 0
      [(1, Real.pi / 2, 1), (3, Real.pi / 2, 0), (2, Real.pi / 2, 1)] = (2, 2) := by
  rw [binSum_cons, if_pos inBin_3_0_1, binSum_cons, if_neg not_inBin_3_0_3,
    binSum_cons, if_pos inBin_3_0_2, binSum_nil]
  norm_num [pairContrib, Prod.ext_iff]

lemma binSum_directional_north :
    binSum .directional (deg2rad 0) (deg2rad 180) (deg2rad 0.01) (foldCenter 0) 3 0
      [(1, Real.pi / 2, 1), (3, Real.pi / 2, 0), (2, Real.pi / 2, 1)] = (4, 4) := by
  have hobval : ∀ ob ∈ [((1 : ℝ), Real.pi / 2, (1 : ℝ)), (3, Real.pi / 2, 0),
      (2, Real.pi / 2, 1)], ob.2.1 = Real.pi / 2 := by
    intro ob hob
    simp only [List.mem_cons, List.not_mem_nil, or_false] at hob
    rcases hob with rfl | rfl | rfl <;> rfl
  have hinc1 : ∀ ob ∈ [((1 : ℝ), Real.pi / 2, (1 : ℝ)), (3, Real.pi / 2, 0),
      (2, Real.pi / 2, 1)], dirInc (deg2rad 0) (deg2rad 180) (deg2rad 0.01) ob.2.1 := by
    intro ob hob
    rw [hobval ob hob,
      dirInc_full_tol _ _ (by linarith [Real.pi_pos]) (by linarith [Real.pi_pos]),
      deg2rad_zero]
    positivity
  have hinc2 : ∀ ob ∈ [((1 : ℝ), Real.pi / 2, (1 : ℝ)), (3, Real.pi / 2, 0),
      (2, Real.pi / 2, 1)], dirInc (foldCenter 0) (deg2rad 180) (deg2rad 0.01) ob.2.1 := by
    intro ob hob
    rw [hobval ob hob,
      dirInc_full_tol _ _ (by linarith [Real.pi_pos]) (by linarith [Real.pi_pos]),
      foldCenter_zero]
    intro hc
    linarith [Real.pi_pos]
  rw [binSum_directional_of_inc _ _ _ _ _ _ _ hinc1 hinc2, binSum_omni_north]
  norm_num

/-- The `directional` series of the vertical example with one lag: both the
centre window and the fold window match every pair, so the two in-bin pairs
are each counted twice (`c = 4`), while the semivariance is unchanged. -/
lemma semivario_directional_north :
    semivario [1, 3, 2] [Real.pi / 2, Real.pi / 2, Real.pi / 2] 3 3 [0, 1, 0] 1 0 180
      .directional = ([3 / 2], [1 / 2], [4]) := by
  have hr1 : List.range 1 = [0] := rfl
  rw [semivario, svRows, svObs_north, lagWidth_31, hr1, List.map_singleton, svRow,
    binSum_directional_north]
  norm_num

lemma north_filter_count :
    ((svObs [1, 3, 2] [Real.pi / 2, Real.pi / 2, Real.pi / 2] [0, 1, 0] 3).filter
        fun ob => decide (inBin (lagWidth 3 1) 0 ob.1)).length = 2 := by
  rw [svObs_north, lagWidth_31]
  simp [List.filter_cons, inBin_3_0_1, not_inBin_3_0_3, inBin_3_0_2]

/-- C9: in `directional` (undirected) mode the centre window test and the
fold window test are two independent accumulations — the accumulator equals
the sum of the two directed accumulators, one per window centre — so a pair
inside both windows is added twice.  Concretely, for three collinear points
on the y-axis (all pair angles `pi/2`), direction 0, tolerance 180 and one
lag, the reported sample count is 4 although only 2 distinct pairs fall in
the lag. -/
theorem C9_directional_double_count :
    (∀ (a ta b m L : ℝ) (s : ℕ) (obs : List (ℝ × ℝ × ℝ)),
        binSum .directional a ta b m L s obs
          = binSum .dirOri a ta b m L s obs + binSum .dirOri m ta b m L s obs)
  ∧ distang [0, 0, 0] [0, 1, 3] = ([1, 3, 2], [Real.pi / 2, Real.pi / 2, Real.pi / 2], 3, 3)
  ∧ semivario [1, 3, 2] [Real.pi / 2, Real.pi / 2, Real.pi / 2] 3 3 [0, 1, 0] 1 0 180
      .directional = ([3 / 2], [1 / 2], [4])
  ∧ ((svObs [1, 3, 2] [Real.pi / 2, Real.pi / 2, Real.pi / 2] [0, 1, 0] 3).filter
        fun ob => decide (inBin (lagWidth 3 1) 0 ob.1)).length = 2
  ∧ (2 : ℝ) < 4 := by
  refine ⟨?_, distang_vline, semivario_directional_north, north_filter_count, by norm_num⟩
  intro a ta b m L s obs
  induction obs with
  | nil =>
    rw [binSum_nil, binSum_nil, binSum_nil]
    norm_num
  | cons ob obs ih =>
    rw [binSum_cons, binSum_cons, binSum_cons, ih]
    by_cases hg : inBin L s ob.1
    · rw [if_pos hg, if_pos hg, if_pos hg]
      have hsplit : pairContrib .directional a ta b m ob.2.1 ob.2.2
          = pairContrib .dirOri a ta b m ob.2.1 ob.2.2
            + pairContrib .dirOri m ta b m ob.2.1 ob.2.2 := rfl
      rw [hsplit]
      exact add_add_add_comm _ _ _ _
    · rw [if_neg hg, if_neg hg, if_neg hg]

/-- C5: for `n >= 2` points the geometry pass yields exactly `n(n-1)/2`
observations in the deterministic double-loop order (ascending `o`, then
ascending `p`, covering exactly the pairs `o < p < n`); every distance is
non-negative and positive unless the coordinates coincide; and the returned
`xr` is the largest pairwise distance (an upper bound that is attained). -/
theorem C5_pairwise_geometry (x y : List ℝ) (n : ℕ)
    (hn : x.length = n) (hy : y.length = n) (h2 : 2 ≤ n) :
    (distang x y).1.length = n * (n - 1) / 2
  ∧ (distang x y).1 = (pairs n).map (fun op =>
      Real.sqrt ((x.getD op.2 0 - x.getD op.1 0) ^ 2 + (y.getD op.2 0 - y.getD op.1 0) ^ 2))
  ∧ (pairs n).Pairwise (fun u w => u.1 < w.1 ∨ (u.1 = w.1 ∧ u.2 < w.2))
  ∧ (∀ u : ℕ × ℕ, u ∈ pairs n ↔ u.1 < u.2 ∧ u.2 < n)
  ∧ (∀ d ∈ (distang x y).1, 0 ≤ d)
  ∧ (∀ op ∈ pairs n, (x.getD op.1 0 ≠ x.getD op.2 0 ∨ y.getD op.1 0 ≠ y.getD op.2 0) →
      0 < Real.sqrt ((x.getD op.2 0 - x.getD op.1 0) ^ 2 + (y.getD op.2 0 - y.getD op.1 0) ^ 2))
  ∧ (∀ d ∈ (distang x y).1, d ≤ (distang x y).2.2.1)
  ∧ (distang x y).2.2.1 ∈ (distang x y).1 := by
  subst hn
  have hr : (distang x y).1 = (pairs x.length).map (fun op =>
      Real.sqrt ((x.getD op.2 0 - x.getD op.1 0) ^ 2
        + (y.getD op.2 0 - y.getD op.1 0) ^ 2)) := rfl
  have hxr : (distang x y).2.2.1 = pymax (distang x y).1 := rfl
  have hlen : (distang x y).1.length = x.length * (x.length - 1) / 2 := by
    rw [hr, List.length_map, pairs_length]
  refine ⟨hlen, hr, pairs_sorted _, pairs_mem _, ?_, ?_, ?_, ?_⟩
  · intro d hd
    rw [hr] at hd
    rcases List.mem_map.mp hd with ⟨op, _, rfl⟩
    exact Real.sqrt_nonneg _
  · intro op _ hne
    apply Real.sqrt_pos.mpr
    rcases hne with hne | hne
    · have hdx : x.getD op.2 0 - x.getD op.1 0 ≠ 0 := sub_ne_zero.mpr (Ne.symm hne)
      have h1 : 0 < (x.getD op.2 0 - x.getD op.1 0) ^ 2 := by positivity
      have h2' : 0 ≤ (y.getD op.2 0 - y.getD op.1 0) ^ 2 := sq_nonneg _
      linarith
    · have hdy : y.getD op.2 0 - y.getD op.1 0 ≠ 0 := sub_ne_zero.mpr (Ne.symm hne)
      have h1 : 0 < (y.getD op.2 0 - y.getD op.1 0) ^ 2 := by positivity
      have h2' : 0 ≤ (x.getD op.2 0 - x.getD op.1 0) ^ 2 := sq_nonneg _
      linarith
  · intro d hd
    rw [hxr]
    exact pymax_ge _ d hd
  · rw [hxr]
    apply pymax_mem
    intro hc
    rw [hc] at hlen
    simp only [List.length_nil] at hlen
    have : 2 * 1 ≤ x.length * (x.length - 1) := Nat.mul_le_mul h2 (by omega)
    omega

/-- Witness for C5 at the collinear three-point input. -/
theorem C5_pairwise_geometry_witness :
    (distang [0, 1, 3] [0, 0, 0]).1.length = 3 * (3 - 1) / 2
  ∧ (distang [0, 1, 3] [0, 0, 0]).1 = (pairs 3).map (fun op =>
      Real.sqrt ((([0, 1, 3] : List ℝ).getD op.2 0 - ([0, 1, 3] : List ℝ).getD op.1 0) ^ 2
        + (([0, 0, 0] : List ℝ).getD op.2 0 - ([0, 0, 0] : List ℝ).getD op.1 0) ^ 2))
  ∧ (pairs 3).Pairwise (fun u w => u.1 < w.1 ∨ (u.1 = w.1 ∧ u.2 < w.2))
  ∧ (∀ u : ℕ × ℕ, u ∈ pairs 3 ↔ u.1 < u.2 ∧ u.2 < 3)
  ∧ (∀ d ∈ (distang [0, 1, 3] [0, 0, 0]).1, 0 ≤ d)
  ∧ (∀ op ∈ pairs 3,
      (([0, 1, 3] : List ℝ).getD op.1 0 ≠ ([0, 1, 3] : List ℝ).getD op.2 0 ∨
       ([0, 0, 0] : List ℝ).getD op.1 0 ≠ ([0, 0, 0] : List ℝ).getD op.2 0) →
      0 < Real.sqrt ((([0, 1, 3] : List ℝ).getD op.2 0 - ([0, 1, 3] : List ℝ).getD op.1 0) ^ 2
        + (([0, 0, 0] : List ℝ).getD op.2 0 - ([0, 0, 0] : List ℝ).getD op.1 0) ^ 2))
  ∧ (∀ d ∈ (distang [0, 1, 3] [0, 0, 0]).1, d ≤ (distang [0, 1, 3] [0, 0, 0]).2.2.1)
  ∧ (distang [0, 1, 3] [0, 0, 0]).2.2.1 ∈ (distang [0, 1, 3] [0, 0, 0]).1 :=
  C5_pairwise_geometry [0, 1, 3] [0, 0, 0] 3 rfl rfl (by norm_num)

/-- C6: every pairwise angle produced by the arctangent lies in `(-pi, pi]`,
the remap step `np.where(t == -180, 180, t)` leaves the list unchanged
(no radian value can equal `-180` since `pi < 180`), and therefore every
angle handed to the binner still lies in `(-pi, pi]`. -/
theorem C6_angle_normalization (x y : List ℝ) :
    (∀ v ∈ (distang x y).2.1, -Real.pi < v ∧ v ≤ Real.pi)
  ∧ remapT (distang x y).2.1 = (distang x y).2.1
  ∧ (∀ v ∈ remapT (distang x y).2.1, -Real.pi < v ∧ v ≤ Real.pi) := by
  have hmem : ∀ v ∈ (distang x y).2.1, -Real.pi < v ∧ v ≤ Real.pi := by
    intro v hv
    have ht : (distang x y).2.1 = (pairs x.length).map (fun op =>
        arctan2 (y.getD op.2 0 - y.getD op.1 0) (x.getD op.2 0 - x.getD op.1 0)) := rfl
    rw [ht] at hv
    rcases List.mem_map.mp hv with ⟨op, _, rfl⟩
    have harg := Complex.arg_mem_Ioc
      ⟨x.getD op.2 0 - x.getD op.1 0, y.getD op.2 0 - y.getD op.1 0⟩
    exact ⟨(Set.mem_Ioc.mp harg).1, (Set.mem_Ioc.mp harg).2⟩
  have hremap : remapT (distang x y).2.1 = (distang x y).2.1 := by
    rw [remapT]
    calc (distang x y).2.1.map (fun v => if v = -180 then (180 : ℝ) else v)
        = (distang x y).2.1.map id := by
          apply List.map_congr_left
          intro v hv
          rw [id_eq, if_neg]
          intro hc
          have hb := (hmem v hv).1
          rw [hc] at hb
          linarith [Real.pi_le_four]
      _ = (distang x y).2.1 := List.map_id _
  refine ⟨hmem, hremap, ?_⟩
  rw [hremap]
  exact hmem

/-- Witness for C6 at a two-point input. -/
theorem C6_angle_normalization_witness :
    remapT (distang [0, 1] [0, 0]).2.1 = (distang [0, 1] [0, 0]).2.1 :=
  (C6_angle_normalization [0, 1] [0, 0]).2.1

/-- C3 names a code bug: the range check on `di` compares the boolean
result of `np.array(di).any()` (always 0 or 1) with `180` and `-180`, so it
can never fire, and a call with `di = [200]` passes validation and proceeds
to computation instead of raising. -/
theorem C3_di_range_check_never_fires :
    (∀ di : List ℝ, ¬ diRangeCheck di)
  ∧ validate [0, 0] [0, 0] [0, 0] "directional+orientational" [200] 30 = Except.ok () := by
  have hnever : ∀ di : List ℝ, ¬ diRangeCheck di := by
    intro di
    rw [diRangeCheck]
    rcases Bool.eq_false_or_eq_true (di.any fun d => decide (d ≠ 0)) with hb | hb
    · rw [hb]
      norm_num
    · rw [hb]
      norm_num
  refine ⟨hnever, ?_⟩
  rw [validate, if_neg (by simp), if_neg ?_, if_neg (hnever [200]),
    if_neg (by norm_num : ¬ (30 : ℝ) > 180)]
  rintro ⟨hty, _⟩
  exact absurd hty (by decide)

/-- C8 is false as stated: at `h = -1`, `c0 = 0`, `ce = 1`, `a0 = 2` the
implemented spherical model (which uses `abs(h)/a0`) gives `11/16`, while
the closed form of the spec written with `h/a0` gives `-11/16`. -/
theorem C8_counterexample : sphvar (-1) 0 1 2 ≠ specSphvar (-1) 0 1 2 := by
  rw [sphvar, specSphvar, show |(-1 : ℝ)| = 1 by rw [abs_neg, abs_one]]
  rw [if_pos (by norm_num : (0 : ℝ) ≤ 1 ∧ (1 : ℝ) ≤ 2)]
  norm_num

/-- C8, amended: the implemented models agree with the closed forms of the
spec with `abs(h)` in place of `h` in the spherical polynomial (hence they
agree on `h >= 0`, the range of lag distances), and with `abs(a0)` in place
of the leading `a0` in the gaussian effective range (hence they agree for
`a0 >= 0`); the exponential and gaussian model curves and the exponential
and spherical ranges match the spec exactly. -/
theorem C8_model_library_amended (h c0 ce a0 sill : ℝ) (hce : ce ≠ 0) (ha0 : a0 ≠ 0) :
    expvar h c0 ce a0 = c0 + ce * (1 - Real.exp (-|h| / a0))
  ∧ (|h| ≤ a0 → sphvar h c0 ce a0
      = c0 + ce * ((3 / 2) * (|h| / a0) - (1 / 2) * (|h| / a0) ^ 3))
  ∧ (a0 < |h| → sphvar h c0 ce a0 = c0 + ce)
  ∧ (0 ≤ h → sphvar h c0 ce a0 = specSphvar h c0 ce a0)
  ∧ sphrange sill c0 ce a0 = a0
  ∧ gauvar h c0 ce a0 = c0 + ce * (1 - Real.exp (-h ^ 2 / a0 ^ 2))
  ∧ exprange sill c0 ce a0 = a0 * (-Real.log (1 - (0.95 * sill - c0) / ce))
  ∧ gaurange sill c0 ce a0 = |a0| * Real.sqrt (-Real.log (1 - (0.95 * sill - c0) / ce))
  ∧ (0 ≤ a0 → gaurange sill c0 ce a0 = specGaurange sill c0 ce a0) := by
  have hAB : -(sill * 0.95 - c0) / ce + 1 = 1 - (0.95 * sill - c0) / ce := by
    ring
  have hgau : gaurange sill c0 ce a0
      = |a0| * Real.sqrt (-Real.log (1 - (0.95 * sill - c0) / ce)) := by
    rw [gaurange, hAB,
      show -a0 ^ 2 * Real.log (1 - (0.95 * sill - c0) / ce)
        = a0 ^ 2 * (-Real.log (1 - (0.95 * sill - c0) / ce)) by ring,
      Real.sqrt_mul (sq_nonneg a0), Real.sqrt_sq_eq_abs]
  refine ⟨rfl, ?_, ?_, ?_, rfl, rfl, ?_, hgau, ?_⟩
  · intro hha
    rw [sphvar, if_pos ⟨abs_nonneg h, hha⟩]
  · intro hha
    rw [sphvar, if_neg]
    rintro ⟨_, hc⟩
    linarith
  · intro hh
    rw [sphvar, specSphvar, abs_of_nonneg hh]
  · rw [exprange, hAB]
    ring
  · intro hpos
    rw [hgau, specGaurange, abs_of_nonneg hpos]

/-- Witness for the amended C8 at `h = 1`, `c0 = 0`, `ce = 1`, `a0 = 2`,
`sill = 1`. -/
theorem C8_model_library_amended_witness :
    expvar 1 0 1 2 = 0 + 1 * (1 - Real.exp (-|(1 : ℝ)| / 2))
  ∧ (|(1 : ℝ)| ≤ 2 → sphvar 1 0 1 2
      = 0 + 1 * ((3 / 2) * (|(1 : ℝ)| / 2) - (1 / 2) * (|(1 : ℝ)| / 2) ^ 3))
  ∧ ((2 : ℝ) < |(1 : ℝ)| → sphvar 1 0 1 2 = 0 + 1)
  ∧ ((0 : ℝ) ≤ 1 → sphvar 1 0 1 2 = specSphvar 1 0 1 2)
  ∧ sphrange 1 0 1 2 = 2
  ∧ gauvar 1 0 1 2 = 0 + 1 * (1 - Real.exp (-(1 : ℝ) ^ 2 / 2 ^ 2))
  ∧ exprange 1 0 1 2 = 2 * (-Real.log (1 - (0.95 * 1 - 0) / 1))
  ∧ gaurange 1 0 1 2 = |(2 : ℝ)| * Real.sqrt (-Real.log (1 - (0.95 * 1 - 0) / 1))
  ∧ ((0 : ℝ) ≤ 2 → gaurange 1 0 1 2 = specGaurange 1 0 1 2) :=
  C8_model_library_amended 1 0 1 2 1 (by norm_num) (by norm_num)

/-- Outcome of one `curve_fit` call (scipy, external to the repository):
either the optimizer does not converge and `curve_fit` raises a
`RuntimeError`; or it converges but the covariance is unavailable, in which
case old scipy returns the scalar `inf` as `pcov` and the later
`pcov.diagonal()` call raises an `AttributeError`; or it returns fitted
parameters with a covariance matrix. -/
inductive CFit
  | fail
  | noCov (popt : Fin 3 → ℝ)
  | ok (popt : Fin 3 → ℝ) (pcov : Fin 3 → Fin 3 → ℝ)

/-- `vark[j,i] = np.mean(np.sqrt(pcovi.diagonal())/popti)`: the mean over
the three parameters of `sqrt(variance)/parameter`. -/
noncomputable def varkOf (popt : Fin 3 → ℝ) (pcov : Fin 3 → Fin 3 → ℝ) : ℝ :=
  (∑ idx : Fin 3, Real.sqrt (pcov idx idx) / popt idx) / 3

/-- One iteration of the fitting loop body: `try: ... except AttributeError:
vark[j,i] = inf`.  Only the `AttributeError` raised when `pcov` is the
scalar `inf` is caught (score becomes infinite, `+∞` here); the
`RuntimeError` of a non-converging optimizer is not caught and propagates. -/
noncomputable def fitCell : CFit → Except Unit ((Fin 3 → ℝ) × WithTop ℝ)
  | .fail => .error ()
  | .noCov popt => .ok (popt, ⊤)
  | .ok popt pcov => .ok (popt, ((varkOf popt pcov : ℝ) : WithTop ℝ))

/-- The value stored for a non-raising cell. -/
noncomputable def fitCellV : CFit → (Fin 3 → ℝ) × WithTop ℝ
  | .fail => (fun _ => 0, ⊤)
  | .noCov popt => (popt, ⊤)
  | .ok popt pcov => (popt, ((varkOf popt pcov : ℝ) : WithTop ℝ))

/-- Sequential effectful map: runs left to right and propagates the first
uncaught exception, like the double `for` loop of the source. -/
def mapE {ε α β : Type} (f : α → Except ε β) : List α → Except ε (List β)
  | [] => .ok []
  | a :: as =>
    match f a with
    | .error e => .error e
    | .ok bv => (mapE f as).map fun bs => bv :: bs

/-- The whole fitting double loop of `model='noidea'`
(`for j in xrange(len(func)): for i in xrange(len(di)): ...` with
`len(func) = 3`), driven by the `curve_fit` outcomes `cf`. -/
noncomputable def fitTable (nDi : ℕ) (cf : ℕ → ℕ → CFit) :
    Except Unit (List (List ((Fin 3 → ℝ) × WithTop ℝ))) :=
  mapE (fun j => mapE (fun i => fitCell (cf j i)) (List.range nDi)) (List.range 3)

/-- `np.mean(vark, axis=1)` for one model row: the mean of the per-direction
scores, infinite as soon as one score is infinite. -/
noncomputable def rowMean (row : List ((Fin 3 → ℝ) × WithTop ℝ)) : WithTop ℝ :=
  WithTop.map (fun sm => sm / (row.length : ℝ))
    ((row.map fun e : (Fin 3 → ℝ) × WithTop ℝ => e.2).sum)

/-- Minimum of a list of extended reals. -/
noncomputable def listMinW (l : List (WithTop ℝ)) : WithTop ℝ := l.foldr min ⊤

/-- `np.argmin`: index of the first minimal element. -/
noncomputable def argminIdx (l : List (WithTop ℝ)) : ℕ :=
  l.findIdx fun v => decide (v ≤ listMinW l)

/-- The range formulas in the order of the `noidea` model list
`[expvar, sphvar, gauvar]`. -/
noncomputable def rangeFuns : List (ℝ → ℝ → ℝ → ℝ → ℝ) :=
  [exprange, sphrange, gaurange]

/-- Assembly of the final outputs once the fit table is complete:
`ind = np.argmin(np.mean(vark, axis=1))`, then per direction
`nugget = popt[ind,:,0]`, `sill = popt[ind,:,0] + popt[ind,:,1]`,
`range = range[ind](sill, popt[ind,:,0], popt[ind,:,1], popt[ind,:,2])`,
`vark = vark[ind]`. -/
noncomputable def noideaAssemble (tab : List (List ((Fin 3 → ℝ) × WithTop ℝ))) :
    List ℝ × List ℝ × List ℝ × List (WithTop ℝ) × ℕ :=
  ((tab.getD (argminIdx (tab.map rowMean)) []).map fun e => e.1 0,
   (tab.getD (argminIdx (tab.map rowMean)) []).map fun e => e.1 0 + e.1 1,
   (tab.getD (argminIdx (tab.map rowMean)) []).map fun e =>
     rangeFuns.getD (argminIdx (tab.map rowMean)) sphrange
       (e.1 0 + e.1 1) (e.1 0) (e.1 1) (e.1 2),
   (tab.getD (argminIdx (tab.map rowMean)) []).map fun e => e.2,
   argminIdx (tab.map rowMean))

/-- The `model='noidea'` fitting stage: run all fits, then select the model
with the smallest mean score and report its outputs. -/
noncomputable def noideaFit (nDi : ℕ) (cf : ℕ → ℕ → CFit) :
    Except Unit (List ℝ × List ℝ × List ℝ × List (WithTop ℝ) × ℕ) :=
  (fitTable nDi cf).map noideaAssemble

lemma mapE_ok {ε α β : Type} (f : α → Except ε β) (g : α → β) (l : List α)
    (h : ∀ a ∈ l, f a = .ok (g a)) : mapE f l = .ok (l.map g) := by
  induction l with
  | nil => rfl
  | cons a as ih =>
    rw [mapE, h a (List.mem_cons_self a as),
      ih fun x hx => h x (List.mem_cons_of_mem a hx)]
    rfl

lemma fitCell_ok (c : CFit) (hc : c ≠ .fail) : fitCell c = .ok (fitCellV c) := by
  cases c with
  | fail => exact absurd rfl hc
  | noCov popt => rfl
  | ok popt pcov => rfl

lemma listMinW_le (l : List (WithTop ℝ)) : ∀ v ∈ l, listMinW l ≤ v := by
  induction l with
  | nil => simp
  | cons a l ih =>
    intro v hv
    rcases List.mem_cons.mp hv with rfl | hv
    · exact min_le_left _ _
    · exact le_trans (min_le_right _ _) (ih v hv)

lemma listMinW_mem : ∀ (l : List (WithTop ℝ)), l ≠ [] → listMinW l ∈ l
  | [], h => absurd rfl h
  | [a], _ => by
      rw [listMinW, List.foldr_cons, List.foldr_nil, min_eq_left le_top]
      exact List.mem_cons_self a []
  | a :: b :: l2, _ => by
      rcases min_choice a (listMinW (b :: l2)) with h1 | h1
      · rw [listMinW, List.foldr_cons,
          show List.foldr min ⊤ (b :: l2) = listMinW (b :: l2) from rfl, h1]
        exact List.mem_cons_self _ _
      · rw [listMinW, List.foldr_cons,
          show List.foldr min ⊤ (b :: l2) = listMinW (b :: l2) from rfl, h1]
        exact List.mem_cons_of_mem a (listMinW_mem (b :: l2) (by simp))

lemma findIdx_spec (l : List (WithTop ℝ)) (p : WithTop ℝ → Bool)
    (hex : ∃ v ∈ l, p v = true) :
    l.findIdx p < l.length ∧ p (l.getD (l.findIdx p) ⊤) = true := by
  induction l with
  | nil =>
    rcases hex with ⟨v, hv, _⟩
    cases hv
  | cons a l ih =>
    by_cases hpa : p a = true
    · rw [List.findIdx_cons, hpa, cond_true]
      exact ⟨by simp, by simpa using hpa⟩
    · have hex2 : ∃ v ∈ l, p v = true := by
        rcases hex with ⟨v, hv, hpv⟩
        rcases List.mem_cons.mp hv with rfl | hv2
        · exact absurd hpv hpa
        · exact ⟨v, hv2, hpv⟩
      have hi := ih hex2
      rw [List.findIdx_cons, Bool.of_not_eq_true hpa, cond_false]
      refine ⟨by simpa using Nat.succ_lt_succ hi.1, ?_⟩
      simpa [List.getD_cons_succ] using hi.2

lemma argminIdx_spec (l : List (WithTop ℝ)) (h : l ≠ []) :
    argminIdx l < l.length ∧ ∀ v ∈ l, l.getD (argminIdx l) ⊤ ≤ v := by
  have hex : ∃ v ∈ l, (decide (v ≤ listMinW l)) = true :=
    ⟨listMinW l, listMinW_mem l h, by simp⟩
  have hsp := findIdx_spec l _ hex
  refine ⟨hsp.1, fun v hv => ?_⟩
  have hle : l.getD (argminIdx l) ⊤ ≤ listMinW l := of_decide_eq_true hsp.2
  exact hle.trans (listMinW_le l v hv)

lemma coe_sum_map {α : Type} (l : List α) (f : α → ℝ) :
    (l.map fun x => ((f x : ℝ) : WithTop ℝ)).sum = (((l.map f).sum : ℝ) : WithTop ℝ) := by
  induction l with
  | nil => simp
  | cons a l ih =>
    simp only [List.map_cons, List.sum_cons, ih]
    rw [← WithTop.coe_add]

/-- C4 is false as stated: a convergence failure of the optimizer raises a
`RuntimeError`, which the fitting loop (`except AttributeError`) does not
catch, so the whole run aborts instead of recording an infinite score and
continuing; here every attempt fails to converge and the stage returns the
propagated exception instead of a result. -/
theorem C4_counterexample :
    noideaFit 1 (fun _ _ => CFit.fail) = Except.error () := rfl

/-- C4, amended: only the covariance-unavailable failure (the
`AttributeError` raised by `pcov.diagonal()` when old scipy returns the
scalar `inf` as covariance) is non-fatal: its score is recorded as infinite
and every other (model, direction) attempt is still executed, and the stage
returns a result.  An optimizer convergence failure (`RuntimeError` from
`curve_fit`) is not caught and aborts the run. -/
theorem C4_fit_failure_amended (nDi : ℕ) (cf : ℕ → ℕ → CFit)
    (hnf : ∀ j i : ℕ, cf j i ≠ CFit.fail) :
    fitTable nDi cf = Except.ok
      ((List.range 3).map fun j => (List.range nDi).map fun i => fitCellV (cf j i))
  ∧ (∀ (j i : ℕ) (popt : Fin 3 → ℝ), cf j i = CFit.noCov popt →
      fitCellV (cf j i) = (popt, (⊤ : WithTop ℝ)))
  ∧ ∃ out, noideaFit nDi cf = Except.ok out := by
  have htab : fitTable nDi cf = Except.ok
      ((List.range 3).map fun j => (List.range nDi).map fun i => fitCellV (cf j i)) := by
    rw [fitTable]
    exact mapE_ok _ _ _ fun j _ => mapE_ok _ _ _ fun i _ => fitCell_ok _ (hnf j i)
  refine ⟨htab, ?_, ?_⟩
  · intro j i popt hno
    rw [hno]
    rfl
  · refine ⟨noideaAssemble
      ((List.range 3).map fun j => (List.range nDi).map fun i => fitCellV (cf j i)), ?_⟩
    rw [noideaFit, htab]
    rfl

/-- Witness for the amended C4: one direction, the first model has no
covariance (scored `+∞`), the other two fit; the whole table is produced. -/
theorem C4_fit_failure_amended_witness :
    fitTable 1 (fun j _ => if j = 0 then CFit.noCov (fun _ => 1)
        else CFit.ok (fun _ => 1) (fun _ _ => 1))
      = Except.ok ((List.range 3).map fun j => (List.range 1).map fun _ =>
          fitCellV (if j = 0 then CFit.noCov (fun _ => 1)
            else CFit.ok (fun _ => 1) (fun _ _ => 1)))
  ∧ (∀ (j i : ℕ) (popt : Fin 3 → ℝ),
      (if j = 0 then CFit.noCov (fun _ => (1 : ℝ))
        else CFit.ok (fun _ => 1) (fun _ _ => 1)) = CFit.noCov popt →
      fitCellV (if j = 0 then CFit.noCov (fun _ => (1 : ℝ))
        else CFit.ok (fun _ => 1) (fun _ _ => 1)) = (popt, (⊤ : WithTop ℝ)))
  ∧ ∃ out, noideaFit 1 (fun j _ => if j = 0 then CFit.noCov (fun _ => 1)
      else CFit.ok (fun _ => 1) (fun _ _ => 1)) = Except.ok out :=
  C4_fit_failure_amended 1
    (fun j _ => if j = 0 then CFit.noCov (fun _ => 1)
      else CFit.ok (fun _ => 1) (fun _ _ => 1))
    (by
      intro j i
      dsimp only
      split <;> simp)

lemma getD_map_range {β : Type} (f : ℕ → β) (k j : ℕ) (h : j < k) (d : β) :
    ((List.range k).map f).getD j d = f j := by
  rw [List.getD_eq_getElem _ _ (by simpa using h)]
  simp

/-- C7: in best-guess (`noidea`) mode, when every fit succeeds the chosen
model index minimizes the mean uncertainty score over all directions, the
per-attempt score is the mean over the three parameters of
`sqrt(variance)/parameter`, the returned per-direction nugget is `c0`, the
sill is `c0 + ce`, and the effective range is obtained by applying the
winning model's inverse range formula (`rangeFuns`, in the model order
`[exponential, spherical, gaussian]`) to the sill and parameters. -/
theorem C7_best_guess_selection (nDi : ℕ) (cf : ℕ → ℕ → CFit)
    (P : ℕ → ℕ → Fin 3 → ℝ) (V : ℕ → ℕ → Fin 3 → Fin 3 → ℝ)
    (hnDi : 1 ≤ nDi)
    (hok : ∀ j i, cf j i = CFit.ok (P j i) (V j i)) :
    (∀ j i, varkOf (P j i) (V j i)
        = (∑ idx : Fin 3, Real.sqrt (V j i idx idx) / P j i idx) / 3)
  ∧ ∃ ind : ℕ, ind < 3
    ∧ noideaFit nDi cf = Except.ok
        ((List.range nDi).map (fun i => P ind i 0),
         (List.range nDi).map (fun i => P ind i 0 + P ind i 1),
         (List.range nDi).map (fun i =>
           rangeFuns.getD ind sphrange
             (P ind i 0 + P ind i 1) (P ind i 0) (P ind i 1) (P ind i 2)),
         (List.range nDi).map (fun i => ((varkOf (P ind i) (V ind i) : ℝ) : WithTop ℝ)),
         ind)
    ∧ ∀ j, j < 3 →
        ((List.range nDi).map fun i => varkOf (P ind i) (V ind i)).sum / (nDi : ℝ)
          ≤ ((List.range nDi).map fun i => varkOf (P j i) (V j i)).sum / (nDi : ℝ) := by
  refine ⟨fun j i => rfl, ?_⟩
  set M : ℕ → ℝ := fun j =>
    ((List.range nDi).map fun i => varkOf (P j i) (V j i)).sum / (nDi : ℝ) with hM
  set tab : List (List ((Fin 3 → ℝ) × WithTop ℝ)) :=
    (List.range 3).map fun j => (List.range nDi).map fun i =>
      (P j i, ((varkOf (P j i) (V j i) : ℝ) : WithTop ℝ)) with htabdef
  have htab : fitTable nDi cf = Except.ok tab := by
    rw [fitTable, htabdef]
    refine mapE_ok _ _ _ fun j _ => mapE_ok _ _ _ fun i _ => ?_
    rw [hok j i]
    rfl
  have hmeans : tab.map rowMean
      = (List.range 3).map fun j => ((M j : ℝ) : WithTop ℝ) := by
    rw [htabdef, List.map_map]
    apply List.map_congr_left
    intro j _
    simp only [Function.comp_apply, rowMean, List.map_map]
    rw [show ((fun e : (Fin 3 → ℝ) × WithTop ℝ => e.2) ∘ fun i =>
        ((P j i, ((varkOf (P j i) (V j i) : ℝ) : WithTop ℝ)) : (Fin 3 → ℝ) × WithTop ℝ))
      = fun i : ℕ => ((varkOf (P j i) (V j i) : ℝ) : WithTop ℝ) from rfl]
    rw [coe_sum_map, WithTop.map_coe]
    rw [hM]
    simp
  have hlen : (tab.map rowMean).length = 3 := by
    rw [hmeans, List.length_map, List.length_range]
  have hne : tab.map rowMean ≠ [] := by
    intro hc
    rw [hc] at hlen
    simp at hlen
  obtain ⟨hlt, hmin⟩ := argminIdx_spec (tab.map rowMean) hne
  set ind := argminIdx (tab.map rowMean) with hinddef
  have hind3 : ind < 3 := by
    rw [hlen] at hlt
    exact hlt
  have hgetD : (tab.map rowMean).getD ind ⊤ = ((M ind : ℝ) : WithTop ℝ) := by
    rw [hmeans, getD_map_range _ _ _ hind3]
  have hrow : tab.getD ind [] = (List.range nDi).map fun i =>
      ((P ind i, ((varkOf (P ind i) (V ind i) : ℝ) : WithTop ℝ)) :
        (Fin 3 → ℝ) × WithTop ℝ) := by
    rw [htabdef, getD_map_range _ _ _ hind3]
  refine ⟨ind, hind3, ?_, ?_⟩
  · rw [noideaFit, htab]
    have hassemble : noideaAssemble tab =
        ((List.range nDi).map (fun i => P ind i 0),
         (List.range nDi).map (fun i => P ind i 0 + P ind i 1),
         (List.range nDi).map (fun i =>
           rangeFuns.getD ind sphrange
             (P ind i 0 + P ind i 1) (P ind i 0) (P ind i 1) (P ind i 2)),
         (List.range nDi).map (fun i => ((varkOf (P ind i) (V ind i) : ℝ) : WithTop ℝ)),
         ind) := by
      rw [noideaAssemble, ← hinddef, hrow]
      refine congrArg₂ _ ?_ (congrArg₂ _ ?_ (congrArg₂ _ ?_ (congrArg₂ _ ?_ rfl)))
      · rw [List.map_map]
        rfl
      · rw [List.map_map]
        rfl
      · rw [List.map_map]
        rfl
      · rw [List.map_map]
        rfl
    rw [show Except.map noideaAssemble (Except.ok tab)
        = Except.ok (noideaAssemble tab) from rfl, hassemble]
  · intro j hj
    have hmem : ((M j : ℝ) : WithTop ℝ) ∈ tab.map rowMean := by
      rw [hmeans]
      exact List.mem_map.mpr ⟨j, List.mem_range.mpr hj, rfl⟩
    have := hmin _ hmem
    rw [hgetD] at this
    exact_mod_cast this

/-- Witness for C7: one direction, every model fitting with unit parameters
and unit covariance. -/
theorem C7_best_guess_selection_witness :
    (∀ j i : ℕ, varkOf ((fun _ _ _ => 1 : ℕ → ℕ → Fin 3 → ℝ) j i)
          ((fun _ _ _ _ => 1 : ℕ → ℕ → Fin 3 → Fin 3 → ℝ) j i)
        = (∑ idx : Fin 3,
            Real.sqrt ((fun _ _ _ _ => 1 : ℕ → ℕ → Fin 3 → Fin 3 → ℝ) j i idx idx)
              / (fun _ _ _ => 1 : ℕ → ℕ → Fin 3 → ℝ) j i idx) / 3)
  ∧ ∃ ind : ℕ, ind < 3
    ∧ noideaFit 1 (fun _ _ => CFit.ok (fun _ => 1) (fun _ _ => 1)) = Except.ok
        ((List.range 1).map (fun i => (fun _ _ _ => 1 : ℕ → ℕ → Fin 3 → ℝ) ind i 0),
         (List.range 1).map (fun i => (fun _ _ _ => 1 : ℕ → ℕ → Fin 3 → ℝ) ind i 0
            + (fun _ _ _ => 1 : ℕ → ℕ → Fin 3 → ℝ) ind i 1),
         (List.range 1).map (fun i =>
           rangeFuns.getD ind sphrange
             ((fun _ _ _ => 1 : ℕ → ℕ → Fin 3 → ℝ) ind i 0
                + (fun _ _ _ => 1 : ℕ → ℕ → Fin 3 → ℝ) ind i 1)
             ((fun _ _ _ => 1 : ℕ → ℕ → Fin 3 → ℝ) ind i 0)
             ((fun _ _ _ => 1 : ℕ → ℕ → Fin 3 → ℝ) ind i 1)
             ((fun _ _ _ => 1 : ℕ → ℕ → Fin 3 → ℝ) ind i 2)),
         (List.range 1).map (fun i =>
           ((varkOf ((fun _ _ _ => 1 : ℕ → ℕ → Fin 3 → ℝ) ind i)
              ((fun _ _ _ _ => 1 : ℕ → ℕ → Fin 3 → Fin 3 → ℝ) ind i) : ℝ) : WithTop ℝ)),
         ind)
    ∧ ∀ j, j < 3 →
        ((List.range 1).map fun i =>
            varkOf ((fun _ _ _ => 1 : ℕ → ℕ → Fin 3 → ℝ) ind i)
              ((fun _ _ _ _ => 1 : ℕ → ℕ → Fin 3 → Fin 3 → ℝ) ind i)).sum / ((1 : ℕ) : ℝ)
          ≤ ((List.range 1).map fun i =>
              varkOf ((fun _ _ _ => 1 : ℕ → ℕ → Fin 3 → ℝ) j i)
                ((fun _ _ _ _ => 1 : ℕ → ℕ → Fin 3 → Fin 3 → ℝ) j i)).sum / ((1 : ℕ) : ℝ) :=
  C7_best_guess_selection 1 (fun _ _ => CFit.ok (fun _ => 1) (fun _ _ => 1))
    (fun _ _ _ => 1) (fun _ _ _ _ => 1) (by norm_num) (fun _ _ => rfl)

lemma distang_r_def (x y : List ℝ) : (distang x y).1 = (pairs x.length).map fun op =>
    Real.sqrt ((x.getD op.2 0 - x.getD op.1 0) ^ 2 + (y.getD op.2 0 - y.getD op.1 0) ^ 2) := rfl

lemma distang_xr_def (x y : List ℝ) : (distang x y).2.2.1 = pymax (distang x y).1 := rfl

lemma distang_n_def (x y : List ℝ) : (distang x y).2.2.2 = x.length := rfl

lemma distang_r_len (x y : List ℝ) :
    (distang x y).1.length = x.length * (x.length - 1) / 2 := by
  rw [distang_r_def, List.length_map, pairs_length]

lemma distang_r_ne_nil (x y : List ℝ) (h2 : 2 ≤ x.length) : (distang x y).1 ≠ [] := by
  intro hc
  have hlen := distang_r_len x y
  rw [hc] at hlen
  have hprod : 2 * 1 ≤ x.length * (x.length - 1) := Nat.mul_le_mul h2 (by omega)
  simp only [List.length_nil] at hlen
  omega

lemma distang_xr_nonneg (x y : List ℝ) (h2 : 2 ≤ x.length) : 0 ≤ (distang x y).2.2.1 := by
  have hmem : (distang x y).2.2.1 ∈ (distang x y).1 := by
    rw [distang_xr_def]
    exact pymax_mem _ (distang_r_ne_nil x y h2)
  rw [distang_r_def] at hmem
  rcases List.mem_map.mp hmem with ⟨op, _, hval⟩
  rw [← hval]
  exact Real.sqrt_nonneg _

lemma not_inBin_at_max (xr : ℝ) (hxr : 0 ≤ xr) (nL s : ℕ) (hnL : 1 ≤ nL) (hs : s < nL) :
    ¬ inBin (lagWidth xr nL) s xr := by
  rintro ⟨h1, h2⟩
  have habs : |xr| = xr := abs_of_nonneg hxr
  have hcast : ((s : ℝ) + 1) ≤ (nL : ℝ) := by exact_mod_cast hs
  have hL0 : 0 ≤ lagWidth xr nL := by
    rw [lagWidth]
    positivity
  have hle : ((s : ℝ) + 1) * lagWidth xr nL ≤ (nL : ℝ) * lagWidth xr nL :=
    mul_le_mul_of_nonneg_right hcast hL0
  have hnz : (nL : ℝ) ≠ 0 := Nat.cast_ne_zero.mpr (by omega)
  have hval : (nL : ℝ) * lagWidth xr nL = xr := by
    rw [lagWidth]
    field_simp
  rw [habs] at h2
  linarith

lemma sum_map_add_nat {α : Type} (l : List α) (f g : α → ℕ) :
    (l.map fun a => f a + g a).sum = (l.map f).sum + (l.map g).sum := by
  induction l with
  | nil => simp
  | cons a l ih =>
    simp only [List.map_cons, List.sum_cons, ih]
    omega

lemma length_filter_eq_sum_ite {α : Type} (l : List α) (p : α → Prop) [DecidablePred p] :
    (l.filter fun a => decide (p a)).length = (l.map fun a => if p a then 1 else 0).sum := by
  induction l with
  | nil => simp
  | cons a l ih =>
    rw [List.filter_cons, List.map_cons, List.sum_cons]
    by_cases h : p a
    · rw [if_pos h, if_pos (decide_eq_true h), List.length_cons, ih]
      omega
    · rw [if_neg h, if_neg (show ¬ decide (p a) = true by simpa using h), ih]
      omega

/-- Double counting: summing the per-lag pair counts over all lags equals
summing, over the pairs, the number of lags whose open interval contains
the pair's distance. -/
lemma sum_lag_counts (obs : List (ℝ × ℝ × ℝ)) (nL : ℕ) (L : ℝ) :
    ((List.range nL).map fun s =>
        (obs.filter fun ob => decide (inBin L s ob.1)).length).sum
  = (obs.map fun ob =>
        ((List.range nL).filter fun s => decide (inBin L s ob.1)).length).sum := by
  induction obs with
  | nil => simp
  | cons ob obs ih =>
    have hsplit : ∀ s ∈ List.range nL,
        (((ob :: obs).filter fun o => decide (inBin L s o.1)).length
          = (if inBin L s ob.1 then 1 else 0)
            + (obs.filter fun o => decide (inBin L s o.1)).length) := by
      intro s _
      rw [List.filter_cons]
      by_cases h : inBin L s ob.1
      · simp [h]
        omega
      · simp [h]
    rw [List.map_congr_left hsplit, sum_map_add_nat, ih, List.map_cons, List.sum_cons,
      length_filter_eq_sum_ite]

/-- A distance lies in at most one open lag interval. -/
lemma lag_count_le_one (L : ℝ) (hL : 0 ≤ L) (nL : ℕ) (rk : ℝ) :
    ((List.range nL).filter fun s => decide (inBin L s rk)).length ≤ 1 := by
  have huniq : ∀ s s' : ℕ, inBin L s rk → inBin L s' rk → s = s' := by
    intro s s' h1 h2
    by_contra hne
    rcases Nat.lt_or_ge s s' with hlt | hge
    · have hcast : ((s : ℝ) + 1) ≤ (s' : ℝ) := by exact_mod_cast hlt
      have hle : ((s : ℝ) + 1) * L ≤ (s' : ℝ) * L := mul_le_mul_of_nonneg_right hcast hL
      linarith [h1.2, h2.1]
    · have hlt2 : s' < s := by omega
      have hcast : ((s' : ℝ) + 1) ≤ (s : ℝ) := by exact_mod_cast hlt2
      have hle : ((s' : ℝ) + 1) * L ≤ (s : ℝ) * L := mul_le_mul_of_nonneg_right hcast hL
      linarith [h2.2, h1.1]
  cases hfl : (List.range nL).filter fun s => decide (inBin L s rk) with
  | nil => simp
  | cons a tail =>
    cases tail with
    | nil => simp
    | cons b tail2 =>
      exfalso
      have hnd : ((List.range nL).filter fun s => decide (inBin L s rk)).Nodup :=
        (List.nodup_range nL).filter _
      rw [hfl] at hnd
      have hab : a ≠ b :=
        (List.pairwise_cons.mp hnd).1 b (List.mem_cons_self b tail2)
      have ha : inBin L a rk := by
        have : a ∈ (List.range nL).filter fun s => decide (inBin L s rk) := by
          rw [hfl]
          exact List.mem_cons_self _ _
        simpa using (List.mem_filter.mp this).2
      have hb : inBin L b rk := by
        have : b ∈ (List.range nL).filter fun s => decide (inBin L s rk) := by
          rw [hfl]
          exact List.mem_cons_of_mem a (List.mem_cons_self _ _)
        simpa using (List.mem_filter.mp this).2
      exact hab (huniq a b ha hb)

lemma sum_le_length_nat (l : List ℕ) (h : ∀ a ∈ l, a ≤ 1) : l.sum ≤ l.length := by
  induction l with
  | nil => simp
  | cons a l ih =>
    simp only [List.sum_cons, List.length_cons]
    have := h a (List.mem_cons_self a l)
    have := ih fun x hx => h x (List.mem_cons_of_mem a hx)
    omega

lemma sum_le_length_sub_one (l : List ℕ) (h1 : ∀ a ∈ l, a ≤ 1)
    (h0 : ∃ a ∈ l, a = 0) : l.sum ≤ l.length - 1 := by
  induction l with
  | nil => simp
  | cons a l ih =>
    simp only [List.sum_cons, List.length_cons]
    rcases h0 with ⟨w, hw, hw0⟩
    rcases List.mem_cons.mp hw with heq | hwl
    · have hsl := sum_le_length_nat l fun x hx => h1 x (List.mem_cons_of_mem a hx)
      omega
    · have hlen : 1 ≤ l.length := List.length_pos.mpr (by rintro rfl; cases hwl)
      have hsum := ih (fun x hx => h1 x (List.mem_cons_of_mem a hx)) ⟨w, hwl, hw0⟩
      have hha := h1 a (List.mem_cons_self a l)
      omega

lemma sum_map_filter_le (l : List ℕ) (q : ℕ → Bool) (f : ℕ → ℕ) :
    ((l.filter q).map f).sum ≤ (l.map f).sum := by
  induction l with
  | nil => simp
  | cons a l ih =>
    rw [List.filter_cons]
    by_cases h : q a
    · simp only [h, if_pos, List.map_cons, List.sum_cons]
      omega
    · simp only [h, Bool.false_eq_true, if_neg, List.map_cons, List.sum_cons,
        not_false_iff]
      omega

lemma svObs_length (r t z : List ℝ) (n : ℕ) (hr : r.length = (pairs n).length)
    (ht : t.length = (pairs n).length) : (svObs r t z n).length = (pairs n).length := by
  rw [svObs, List.length_map, List.length_zip, List.length_zip, hr, ht]
  omega

lemma svObs_exists_of_mem_r (r t z : List ℝ) (n : ℕ) (hr : r.length = (pairs n).length)
    (ht : t.length = (pairs n).length) (v : ℝ) (hv : v ∈ r) :
    ∃ ob ∈ svObs r t z n, ob.1 = v := by
  rcases List.mem_iff_getElem.mp hv with ⟨k, hk, hkv⟩
  have hklt : k < (svObs r t z n).length := by
    rw [svObs_length r t z n hr ht, ← hr]
    exact hk
  refine ⟨(svObs r t z n)[k], List.getElem_mem hklt, ?_⟩
  rw [← hkv]
  rw [show (svObs r t z n)[k] = (svObs r t z n).get ⟨k, hklt⟩ from rfl]
  simp only [svObs, List.get_eq_getElem, List.getElem_map, List.getElem_zip]

lemma distang_t_def (x y : List ℝ) : (distang x y).2.1 = (pairs x.length).map fun op =>
    arctan2 (y.getD op.2 0 - y.getD op.1 0) (x.getD op.2 0 - x.getD op.1 0) := rfl

lemma cast_sum_map_nat {α : Type} (l : List α) (f : α → ℕ) :
    (l.map fun x => ((f x : ℕ) : ℝ)).sum = (((l.map f).sum : ℕ) : ℝ) := by
  induction l with
  | nil => simp
  | cons a l ih =>
    simp only [List.map_cons, List.sum_cons, ih]
    push_cast
    ring

/-- Total sample count over all emitted omnidirectional lags is at most the
number of pairs minus one, whenever the maximum `xr` is non-negative, is
attained in `r`, and the streams have the pair length: the open upper edge
of the last lag equals `xr` and each pair falls into at most one lag. -/
lemma omni_total_count_le (r t z : List ℝ) (xr : ℝ) (n nL : ℕ) (di td : ℝ)
    (hxr : 0 ≤ xr) (hrlen : r.length = (pairs n).length)
    (htlen : t.length = (pairs n).length) (hmem : xr ∈ r) (hnL : 1 ≤ nL) :
    (semivario r t xr n z nL di td .omni).2.2.sum ≤ (((pairs n).length - 1 : ℕ) : ℝ) := by
  have hL0 : 0 ≤ lagWidth xr nL := by
    rw [lagWidth]
    positivity
  rw [semivario_omni_eq r t z xr n nL di td]
  dsimp only
  rw [cast_sum_map_nat]
  apply Nat.cast_le.mpr
  have hzero : ((List.range nL).filter fun s =>
      decide (inBin (lagWidth xr nL) s xr)).length = 0 := by
    rw [List.length_eq_zero, List.filter_eq_nil_iff]
    intro s hs
    simpa using not_inBin_at_max xr hxr nL s hnL (List.mem_range.mp hs)
  obtain ⟨ob0, hob0, hob01⟩ := svObs_exists_of_mem_r r t z n hrlen htlen xr hmem
  have hle1 : ∀ a ∈ (svObs r t z n).map fun ob =>
      ((List.range nL).filter fun s => decide (inBin (lagWidth xr nL) s ob.1)).length,
      a ≤ 1 := by
    intro a ha
    rcases List.mem_map.mp ha with ⟨ob, _, rfl⟩
    exact lag_count_le_one _ hL0 _ _
  have hex0 : ∃ a ∈ (svObs r t z n).map fun ob =>
      ((List.range nL).filter fun s => decide (inBin (lagWidth xr nL) s ob.1)).length,
      a = 0 := by
    refine ⟨_, List.mem_map.mpr ⟨ob0, hob0, rfl⟩, ?_⟩
    rw [hob01]
    exact hzero
  calc (((List.range nL).filter fun s => decide (lagCount r t z xr n nL s ≠ 0)).map
          fun s => lagCount r t z xr n nL s).sum
      ≤ ((List.range nL).map fun s => lagCount r t z xr n nL s).sum :=
        sum_map_filter_le _ _ _
    _ = ((svObs r t z n).map fun ob =>
          ((List.range nL).filter fun s => decide (inBin (lagWidth xr nL) s ob.1)).length).sum := by
        simp only [lagCount]
        exact sum_lag_counts _ _ _
    _ ≤ ((svObs r t z n).map fun ob =>
          ((List.range nL).filter fun s =>
            decide (inBin (lagWidth xr nL) s ob.1)).length).length - 1 :=
        sum_le_length_sub_one _ hle1 hex0
    _ = (pairs n).length - 1 := by
        rw [List.length_map, svObs_length r t z n hrlen htlen]

/-- C10: a pair whose distance equals the maximum distance `xr` is assigned
to no lag in any mode (the open upper edge of the last lag is exactly
`nL * (xr/nL) = xr`), and consequently the total omnidirectional sample
count over all emitted lags, computed on the output of `distang`, is at
most `n(n-1)/2 - 1`. -/
theorem C10_max_distance_pair_dropped (x y z : List ℝ) (nL : ℕ) (di td : ℝ)
    (h2 : 2 ≤ x.length) (hy : y.length = x.length) (hnL : 1 ≤ nL) :
    (∀ (ty : SVType) (a ta b m : ℝ) (s : ℕ), s < nL → ∀ tk sq : ℝ,
        binSum ty a ta b m (lagWidth (distang x y).2.2.1 nL) s
          [((distang x y).2.2.1, tk, sq)] = (0, 0))
  ∧ (semivario (distang x y).1 (remapT (distang x y).2.1) (distang x y).2.2.1
        (distang x y).2.2.2 z nL di td .omni).2.2.sum
      ≤ ((x.length * (x.length - 1) / 2 - 1 : ℕ) : ℝ) := by
  have hxr := distang_xr_nonneg x y h2
  constructor
  · intro ty a ta b m s hs tk sq
    rw [binSum_cons, binSum_nil, if_neg (not_inBin_at_max _ hxr nL s hnL hs)]
  · have hrlen : (distang x y).1.length = (pairs x.length).length := by
      rw [distang_r_len, pairs_length]
    have htlen : (remapT (distang x y).2.1).length = (pairs x.length).length := by
      rw [remapT, List.length_map, distang_t_def, List.length_map]
    have hmem : (distang x y).2.2.1 ∈ (distang x y).1 := by
      rw [distang_xr_def]
      exact pymax_mem _ (distang_r_ne_nil x y h2)
    have hmain := omni_total_count_le (distang x y).1 (remapT (distang x y).2.1) z
      (distang x y).2.2.1 x.length nL di td hxr hrlen htlen hmem hnL
    rw [distang_n_def, pairs_length] at *
    exact hmain

/-- Witness for C10 at a two-point input. -/
theorem C10_max_distance_pair_dropped_witness :
    (∀ (ty : SVType) (a ta b m : ℝ) (s : ℕ), s < 1 → ∀ tk sq : ℝ,
        binSum ty a ta b m (lagWidth (distang [0, 1] [0, 0]).2.2.1 1) s
          [((distang [0, 1] [0, 0]).2.2.1, tk, sq)] = (0, 0))
  ∧ (semivario (distang [0, 1] [0, 0]).1 (remapT (distang [0, 1] [0, 0]).2.1)
        (distang [0, 1] [0, 0]).2.2.1 (distang [0, 1] [0, 0]).2.2.2 [0, 0] 1 0 180
        .omni).2.2.sum
      ≤ ((([0, 1] : List ℝ).length * (([0, 1] : List ℝ).length - 1) / 2 - 1 : ℕ) : ℝ) :=
  C10_max_distance_pair_dropped [0, 1] [0, 0] [0, 0] 1 0 180 (by norm_num) rfl
    (by norm_num)

end Semivario
